import Mathlib

/-!
Verification of the CloudVault server (src/server.js): the multipart upload
decoder, the human-readable size codec, and the quota-checked metadata store.

Bytes are modelled as `List Nat` (Node Buffers; `buffer.toString('binary')`
is the identity on byte values, so the string scans in the source are
byte-level scans).  JS numbers are modelled by exact rationals: `Math.log`
division and `toFixed(2)` are modelled with exact arithmetic, which is the
idealised semantics the spec describes (ECMAScript only requires an
implementation-dependent approximation for `Math.log`).
-/

namespace CloudVault

abbrev Bytes := List Nat

/-- Byte sequence of a string literal (all literals used are ASCII, matching
the 1:1 byte/char reading of latin1 buffers in the source). -/
def strBytes (s : String) : Bytes := s.data.map Char.toNat

/-- Byte at index `n`, `none` when out of range (models `buffer[n]`). -/
def byteAt (s : Bytes) (n : Nat) : Option Nat := (s.drop n).head?

/-- The byte pattern `pat` occurs in `s` at offset `i`
(models `buffer.indexOf / lastIndexOf` hits). -/
def occursAt (pat s : Bytes) (i : Nat) : Prop := (s.drop i).take pat.length = pat

/-- `pat` occurs somewhere in `s`. -/
def occursIn (pat s : Bytes) : Prop := ∃ i, occursAt pat s i

/-- `i` is the first occurrence of `pat` in `s`. -/
def isFirstOcc (pat s : Bytes) (i : Nat) : Prop :=
  occursAt pat s i ∧ ∀ j, occursAt pat s j → i ≤ j

/-- `i` is the last occurrence of `pat` in `s`. -/
def isLastOcc (pat s : Bytes) (i : Nat) : Prop :=
  occursAt pat s i ∧ ∀ j, occursAt pat s j → j ≤ i

/-- Index of the first occurrence of `pat` in `s`
(models `buffer.indexOf(pat)`, with `none` for `-1`). -/
def firstIdxOf (pat : Bytes) : Bytes → Option Nat
  | [] => if ([] : Bytes).take pat.length = pat then some 0 else none
  | c :: t =>
    if (c :: t).take pat.length = pat then some 0
    else (firstIdxOf pat t).map (fun j => j + 1)

/-- Index of the last occurrence of `pat` in `s`
(models `buffer.lastIndexOf(pat)`, with `none` for `-1`). -/
def lastIdxOf (pat : Bytes) : Bytes → Option Nat
  | [] => if ([] : Bytes).take pat.length = pat then some 0 else none
  | c :: t =>
    match lastIdxOf pat t with
    | some j => some (j + 1)
    | none => if (c :: t).take pat.length = pat then some 0 else none

/-! ### Size codec (src/server.js lines 60-79) -/

/-- `sizes = ['Bytes', 'KB', 'MB', 'GB']`. -/
def sizes : List String := ["Bytes", "KB", "MB", "GB"]

/-- `x.toFixed(2)` followed by `parseFloat`, under exact arithmetic:
round to the nearest multiple of 1/100 (ECMAScript `toFixed` picks the
larger candidate on ties, as does `round`). -/
def toFixed2 (q : ℚ) : ℚ := (round (q * 100) : ℤ) / 100

/-- Fuel-driven floored base-1024 logarithm. -/
def ilog1024Aux : Nat → Nat → Nat
  | 0, _ => 0
  | fuel + 1, n => if n < 1024 then 0 else ilog1024Aux fuel (n / 1024) + 1

/-- `Math.floor(Math.log(bytes) / Math.log(1024))` under exact real
semantics: the floored base-1024 logarithm. -/
def ilog1024 (n : Nat) : Nat := ilog1024Aux n n

/-- A formatted size string such as `"2.4 MB"`: the numeric part (the value
`parseFloat` recovers from it) together with the unit label.  `unit` is the
array lookup `sizes[i]`; an out-of-range index yields the JS value
`undefined`, rendered as the label `"undefined"`. -/
structure SizeStr where
  value : ℚ
  unit : String
deriving DecidableEq

/-- `formatFileSize` (src/server.js lines 60-66). -/
def formatFileSize (bytes : Nat) : SizeStr :=
  if bytes = 0 then ⟨0, "Bytes"⟩
  else
    let i := ilog1024 bytes
    ⟨toFixed2 ((bytes : ℚ) / 1024 ^ i), sizes.getD i "undefined"⟩

/-- The byte factor of a unit label in `parseFileSize`'s `switch`;
the `default` branch returns 0. -/
def unitFactor : String → ℚ
  | "Bytes" => 1
  | "KB" => 1024
  | "MB" => 1024 * 1024
  | "GB" => 1024 * 1024 * 1024
  | _ => 0

/-- `parseFileSize` (src/server.js lines 68-79): numeric part times the
unit factor; an unknown unit yields 0 (the `default` branch). -/
def parseFileSize (s : SizeStr) : ℚ :=
  if s.unit = "Bytes" then s.value else s.value * unitFactor s.unit

/-! ### Multipart decoder (src/server.js lines 102-177) -/

/-- `'multipart/form-data'`. -/
def mfdBytes : Bytes := strBytes "multipart/form-data"

/-- `'boundary='`. -/
def boundaryEqBytes : Bytes := strBytes "boundary="

/-- `'\r\n\r\n'`, the header terminator. -/
def crlf2Bytes : Bytes := [13, 10, 13, 10]

/-- `filename="`, the literal part of the regex `/filename="([^"]+)"/`. -/
def fnPat : Bytes := strBytes "filename=\""

/-- `contentType.split('boundary=')[1]`: the chunk between the first
occurrence of `boundary=` and the next one (or the end); `none` when the
chunk is missing or empty (both are falsy in the source's `if (!boundary)`). -/
def getBoundary (ct : Bytes) : Option Bytes :=
  match firstIdxOf boundaryEqBytes ct with
  | none => none
  | some i =>
    let rest := ct.drop (i + 9)
    let b := match firstIdxOf boundaryEqBytes rest with
      | none => rest
      | some j => rest.take j
    if b = [] then none else some b

/-- One attempt of the regex `/filename="([^"]+)"/` anchored at the start of
`s`: the literal `filename="`, then a non-empty greedy run of non-quote
bytes, then a closing quote; the capture is that run. -/
def capAt0 (s : Bytes) : Option Bytes :=
  if s.take 10 = fnPat then
    let rest := s.drop 10
    let cap := rest.takeWhile (fun c => c != 34)
    if cap = [] then none
    else if cap.length < rest.length then some cap else none
  else none

/-- `bufferStr.match(/filename="([^"]+)"/)`: the capture of the leftmost
position where the whole regex matches. -/
def matchFilename : Bytes → Option Bytes
  | [] => none
  | c :: t =>
    match capAt0 (c :: t) with
    | some cap => some cap
    | none => matchFilename t

/-- Decoder success value: `{ originalname, size }` plus the extracted file
payload (`fileData`), which the source writes to disk at a freshly generated
path. -/
structure ParsedFile where
  originalname : Bytes
  fileData : Bytes
  size : Nat
deriving DecidableEq

/-- The decoder's failure cases; the spec groups all of them as
`MalformedRequest`. -/
inductive MPError where
  | notMultipart
  | noBoundary
  | invalidFormat
  | noFileBoundaries
deriving DecidableEq

/-- Decoder outcome. -/
inductive MPResult where
  | err : MPError → MPResult
  | ok : ParsedFile → MPResult
deriving DecidableEq

/-- `parseMultipart` (src/server.js lines 102-177), as a pure function of
the `Content-Type` header bytes and the request body bytes.  The final
`fs.writeFile` side effect and the generated storage path are outside the
pure decoder. -/
def parseMultipart (ct body : Bytes) : MPResult :=
  if firstIdxOf mfdBytes ct = none then .err .notMultipart
  else
    match getBoundary ct with
    | none => .err .noBoundary
    | some boundary =>
      let boundaryBytes := [45, 45] ++ boundary
      let boundaryEndBytes := boundaryBytes ++ [45, 45]
      let filename := (matchFilename body).getD []
      match firstIdxOf crlf2Bytes body with
      | none => .err .invalidFormat
      | some headerEnd =>
        let fileStartIndex := headerEnd + 4
        match (match lastIdxOf boundaryBytes body with
               | some e => some e
               | none => lastIdxOf boundaryEndBytes body) with
        | none => .err .noFileBoundaries
        | some fileEndIndex =>
          if fileStartIndex ≥ fileEndIndex then .err .noFileBoundaries
          else
            let fileData := (body.take (fileEndIndex - 2)).drop fileStartIndex
            .ok ⟨filename, fileData, fileData.length⟩

/-! ### Metadata store and orchestrators (src/server.js lines 240-432) -/

/-- `file.originalname.split('.').pop()`: the suffix after the last dot
(byte 46); the whole name when there is no dot; empty when the name ends
with a dot or is empty. -/
def extAfterLastDot (s : Bytes) : Bytes :=
  (s.reverse.takeWhile (fun c => c != 46)).reverse

/-- A stored metadata record (the JSON objects in `cloudvault-data.json`).
`date` keeps the upload timestamp abstractly. -/
structure FileRecord where
  id : Nat
  name : Bytes
  ftype : Bytes
  size : SizeStr
  date : Nat
  path : Bytes
deriving DecidableEq

instance : Inhabited FileRecord := ⟨0, [], [], ⟨0, "Bytes"⟩, 0, []⟩

/-- Persisted snapshot plus the set of blobs on disk (as stored paths). -/
structure Vault where
  files : List FileRecord
  blobs : List Bytes
deriving DecidableEq

/-- The empty store. -/
def emptyVault : Vault := ⟨[], []⟩

/-- The capacity constant: `25 * 1024 * 1024 * 1024` bytes. -/
def totalBytes : ℚ := 25 * 1024 * 1024 * 1024

/-- `getTotalStorageUsed` (src/server.js lines 81-91): decode every stored
record's size string and sum. -/
def getTotalStorageUsed (files : List FileRecord) : ℚ :=
  files.foldl (fun total f => total + parseFileSize f.size) 0

/-- The `newFile` record built on the upload route (src/server.js lines
316-323): `type` is `split('.').pop() || 'unknown'`. -/
def mkNewFile (now : Nat) (originalname path : Bytes) (n : Nat) : FileRecord :=
  { id := now
    name := originalname
    ftype :=
      if extAfterLastDot originalname = [] then strBytes "unknown"
      else extAfterLastDot originalname
    size := formatFileSize n
    date := now
    path := path }

/-- Upload outcome as surfaced by the route handler. -/
inductive UploadResult where
  | ok : FileRecord → UploadResult
  | quotaExceeded
  | persistenceFailed
deriving DecidableEq

/-- One upload request after a successful decode: the decoded file
(name, generated storage path, byte length), the clock value used for the
record id, and oracles for the two fallible side effects (`saveData`
success, `fs.unlinkSync` success). -/
structure UploadIn where
  now : Nat
  originalname : Bytes
  path : Bytes
  bytes : Nat
  saveOk : Bool
  unlinkOk : Bool
deriving DecidableEq

/-- The upload route (src/server.js lines 288-337).  `parseMultipart` has
already written the blob; then the quota check runs against the decoded
total of the stored records; on overflow the just-written blob is deleted
(errors swallowed) and no record is created; otherwise the record is
appended and persisted (a failed save leaves the on-disk snapshot unchanged
and the blob orphaned). -/
def uploadStep (σ : Vault) (u : UploadIn) : UploadResult × Vault :=
  let blobs1 := σ.blobs ++ [u.path]
  let usedBytes := getTotalStorageUsed σ.files
  if usedBytes + (u.bytes : ℚ) > totalBytes then
    (.quotaExceeded, { files := σ.files, blobs := if u.unlinkOk then σ.blobs else blobs1 })
  else
    let newFile := mkNewFile u.now u.originalname u.path u.bytes
    if u.saveOk then
      (.ok newFile, { files := σ.files ++ [newFile], blobs := blobs1 })
    else
      (.persistenceFailed, { files := σ.files, blobs := blobs1 })

/-- Run a sequence of upload requests. -/
def runUploads (σ : Vault) (reqs : List UploadIn) : Vault :=
  reqs.foldl (fun σ u => (uploadStep σ u).2) σ

/-- Whether an upload was accepted. -/
def isAccepted : UploadResult → Bool
  | .ok _ => true
  | _ => false

/-- `data.files.splice(i, 1)`: remove the element at index `i`. -/
def spliceOut (l : List FileRecord) (i : Nat) : List FileRecord :=
  l.take i ++ l.drop (i + 1)

/-- `data.files.splice(i, 0, a)`: insert `a` at index `i`. -/
def spliceIn (l : List FileRecord) (i : Nat) (a : FileRecord) : List FileRecord :=
  l.take i ++ a :: l.drop i

/-- Delete outcome as surfaced by the route handler. -/
inductive DeleteResult where
  | ok
  | notFound
  | persistenceFailed
deriving DecidableEq

/-- Result of the delete route: status, resulting store state, and the
request handler's in-memory `data.files` after any rollback. -/
structure DeleteOut where
  result : DeleteResult
  vault : Vault
  mem : List FileRecord
deriving DecidableEq

/-- The delete route (src/server.js lines 395-432): find the record by id,
splice it out, persist; on persistence failure splice it back in at its
original index and leave disk (snapshot and blob) untouched; on success
delete the blob best-effort. -/
def deleteStep (σ : Vault) (fid : Nat) (saveOk unlinkOk : Bool) : DeleteOut :=
  let data := σ.files
  match data.findIdx? (fun f => f.id == fid) with
  | none => ⟨.notFound, σ, data⟩
  | some i =>
    let file := data.getD i default
    let files2 := spliceOut data i
    if saveOk then
      ⟨.ok, { files := files2, blobs := if unlinkOk then σ.blobs.erase file.path else σ.blobs },
        files2⟩
    else
      ⟨.persistenceFailed, σ, spliceIn files2 i file⟩

/-! ### Concrete instances used in counterexamples and witnesses -/

/-- The part header used by the spec's decoder-correctness scenario. -/
def c1HeaderBytes : Bytes :=
  strBytes "Content-Disposition: form-data; name=\"file\"; filename=\"a.txt\""

/-- The framed single-part body `--B\r\n<header>\r\n\r\n<P>\r\n--B--` from the
spec's decoder-correctness scenario. -/
def c1Body (B P : Bytes) : Bytes :=
  [45, 45] ++ B ++ [13, 10] ++ c1HeaderBytes ++ [13, 10, 13, 10] ++ P ++
    [13, 10] ++ [45, 45] ++ B ++ [45, 45]

/-- A content type whose boundary token is the single byte `-`. -/
def c1badct : Bytes := strBytes "multipart/form-data; boundary=-"

/-- A content type whose boundary token is the single byte `X`. -/
def c1goodct : Bytes := strBytes "multipart/form-data; boundary=X"

/-- A content type with boundary `XYZ`. -/
def c8ct : Bytes := strBytes "multipart/form-data; boundary=XYZ"

/-- A body whose header block has no `filename="..."` token but whose payload
is the fifteen bytes `filename="evil"`. -/
def c8body : Bytes :=
  [45, 45] ++ strBytes "XYZ" ++ [13, 10] ++
    strBytes "Content-Disposition: form-data; name=\"file\"" ++ [13, 10, 13, 10] ++
    strBytes "filename=\"evil\"" ++ [13, 10] ++ [45, 45] ++ strBytes "XYZ" ++ [45, 45]

/-- First upload of the quota-drift scenario: 25624848630 bytes, which
formats as `23.87 GB` (rounded down). -/
def c3u1 : UploadIn := ⟨1, strBytes "a.bin", strBytes "p1", 25624848630, true, true⟩

/-- Second upload of the quota-drift scenario: 100 bytes (exact). -/
def c3u2 : UploadIn := ⟨2, strBytes "b.bin", strBytes "p2", 100, true, true⟩

/-- Third upload of the quota-drift scenario: 1207959552 bytes = 1.125 GiB,
which formats as `1.13 GB` (rounded up). -/
def c3u3 : UploadIn := ⟨3, strBytes "c.bin", strBytes "p3", 1207959552, true, true⟩

/-- A store already holding a record whose decoded size is the full 25 GiB. -/
def c4vault : Vault :=
  ⟨[⟨9, strBytes "big.bin", strBytes "bin", ⟨25, "GB"⟩, 9, strBytes "pbig"⟩],
    [strBytes "pbig"]⟩

/-- A one-byte upload arriving at the full store. -/
def c4in : UploadIn := ⟨7, strBytes "x.txt", strBytes "px", 1, true, true⟩

/-- A stored record with id 1. -/
def c5rec1 : FileRecord := ⟨1, strBytes "one.txt", strBytes "txt", ⟨1, "KB"⟩, 1, strBytes "q1"⟩

/-- A stored record with id 2. -/
def c5rec2 : FileRecord := ⟨2, strBytes "two.txt", strBytes "txt", ⟨2, "KB"⟩, 2, strBytes "q2"⟩

/-- A store holding two records and their blobs. -/
def c5vault : Vault := ⟨[c5rec1, c5rec2], [strBytes "q1", strBytes "q2"]⟩

/-- An upload whose filename `README` contains no dot. -/
def c9in : UploadIn := ⟨5, strBytes "README", strBytes "p", 10, true, true⟩

/-- An upload whose filename `a.tar.gz` has extension `gz`. -/
def c9win : UploadIn := ⟨6, strBytes "a.tar.gz", strBytes "pz", 7, true, true⟩

/-! ### List infrastructure lemmas -/

theorem drop_len_add (a b : Bytes) (k : Nat) : (a ++ b).drop (a.length + k) = b.drop k := by
  induction a with
  | nil => simp
  | cons c t ih => simp [Nat.succ_add, ih]

theorem take_len_add (a b : Bytes) (k : Nat) : (a ++ b).take (a.length + k) = a ++ b.take k := by
  induction a with
  | nil => simp
  | cons c t ih => simp [Nat.succ_add, ih]

theorem byteAt_cons_succ (c : Nat) (t : Bytes) (n : Nat) : byteAt (c :: t) (n + 1) = byteAt t n :=
  rfl

theorem byteAt_drop (s : Bytes) (i k : Nat) : byteAt (s.drop i) k = byteAt s (i + k) := by
  rw [byteAt, byteAt, List.drop_drop]

theorem byteAt_append_right (a b : Bytes) (k : Nat) :
    byteAt (a ++ b) (a.length + k) = byteAt b k := by
  rw [byteAt, byteAt, drop_len_add]

theorem byteAt_append_left (a b : Bytes) (n : Nat) (h : n < a.length) :
    byteAt (a ++ b) n = byteAt a n := by
  induction a generalizing n with
  | nil => exact absurd h (by simp)
  | cons c t ih =>
    cases n with
    | zero => rfl
    | succ n =>
      rw [List.cons_append, byteAt_cons_succ, byteAt_cons_succ]
      exact ih n (by simpa using h)

theorem byteAt_mem {s : Bytes} {n c : Nat} (h : byteAt s n = some c) : c ∈ s := by
  induction s generalizing n with
  | nil => simp [byteAt] at h
  | cons x t ih =>
    cases n with
    | zero =>
      simp only [byteAt, List.drop_zero, List.head?_cons, Option.some.injEq] at h
      simp [h]
    | succ n => exact List.mem_cons_of_mem _ (ih (by simpa [byteAt_cons_succ] using h))

theorem byteAt_lt {s : Bytes} {n c : Nat} (h : byteAt s n = some c) : n < s.length := by
  induction s generalizing n with
  | nil => simp [byteAt] at h
  | cons x t ih =>
    cases n with
    | zero => simp
    | succ n =>
      have := ih (by simpa [byteAt_cons_succ] using h)
      simpa [Nat.succ_lt_succ_iff] using this

theorem byteAt_take {s : Bytes} {m k : Nat} (h : k < m) :
    byteAt (s.take m) k = byteAt s k := by
  induction s generalizing m k with
  | nil => simp
  | cons x t ih =>
    cases m with
    | zero => omega
    | succ m =>
      cases k with
      | zero => rfl
      | succ k =>
        rw [List.take_succ_cons, byteAt_cons_succ, byteAt_cons_succ]
        exact ih (by omega)

theorem occursAt_cons_succ (pat : Bytes) (c : Nat) (t : Bytes) (i : Nat) :
    occursAt pat (c :: t) (i + 1) ↔ occursAt pat t i := Iff.rfl

theorem occursAt_nil_iff (pat : Bytes) (i : Nat) :
    occursAt pat ([] : Bytes) i ↔ pat = [] := by
  simp [occursAt, eq_comm]

theorem occursAt_byteAt {pat s : Bytes} {i : Nat} (h : occursAt pat s i) {k c : Nat}
    (hk : byteAt pat k = some c) : byteAt s (i + k) = some c := by
  have hkl : k < pat.length := byteAt_lt hk
  rw [occursAt] at h
  rw [← byteAt_drop, ← byteAt_take hkl, h]
  exact hk

theorem occursAt_length {pat s : Bytes} {i : Nat} (hp : pat ≠ []) (h : occursAt pat s i) :
    i + pat.length ≤ s.length := by
  rw [occursAt] at h
  have hl := congrArg List.length h
  simp only [List.length_take, List.length_drop] at hl
  have hpos : 0 < pat.length := List.length_pos.mpr hp
  omega

theorem occursAt_append_inner {pat a b : Bytes} {k : Nat} (h : occursAt pat b k) :
    occursAt pat (a ++ b) (a.length + k) := by
  rw [occursAt] at h ⊢
  rw [drop_len_add]
  exact h

theorem firstIdxOf_eq_some_iff {pat : Bytes} {s : Bytes} {i : Nat} :
    firstIdxOf pat s = some i ↔ occursAt pat s i ∧ ∀ j, j < i → ¬ occursAt pat s j := by
  induction s generalizing i with
  | nil =>
    by_cases hc : ([] : Bytes).take pat.length = pat
    · simp only [firstIdxOf, if_pos hc, Option.some.injEq]
      constructor
      · rintro rfl
        exact ⟨by simpa [occursAt] using hc, by omega⟩
      · rintro ⟨-, hall⟩
        by_contra hne
        exact hall 0 (by omega) (by simpa [occursAt] using hc)
    · simp only [firstIdxOf, if_neg hc]
      constructor
      · rintro ⟨⟩
      · rintro ⟨hocc, -⟩
        exact absurd (by simpa [occursAt] using hocc) hc
  | cons c t ih =>
    by_cases hc : (c :: t).take pat.length = pat
    · simp only [firstIdxOf, if_pos hc, Option.some.injEq]
      constructor
      · rintro rfl
        exact ⟨by simpa [occursAt] using hc, by omega⟩
      · rintro ⟨-, hall⟩
        by_contra hne
        exact hall 0 (by omega) (by simpa [occursAt] using hc)
    · simp only [firstIdxOf, if_neg hc]
      cases i with
      | zero =>
        simp only [Option.map_eq_some']
        constructor
        · rintro ⟨j, -, hj⟩; omega
        · rintro ⟨hocc, -⟩
          exact absurd (by simpa [occursAt] using hocc) hc
      | succ i =>
        simp only [Option.map_eq_some']
        constructor
        · rintro ⟨j, hj, hji⟩
          have hji' : j = i := by omega
          subst hji'
          obtain ⟨hocc, hall⟩ := ih.mp hj
          refine ⟨(occursAt_cons_succ ..).mpr hocc, ?_⟩
          intro j hji
          cases j with
          | zero => exact fun hocc0 => hc (by simpa [occursAt] using hocc0)
          | succ j =>
            rw [occursAt_cons_succ]
            exact hall j (by omega)
        · rintro ⟨hocc, hall⟩
          refine ⟨i, ih.mpr ⟨(occursAt_cons_succ ..).mp hocc, ?_⟩, rfl⟩
          intro j hji hoccj
          exact hall (j + 1) (by omega) ((occursAt_cons_succ ..).mpr hoccj)

theorem firstIdxOf_eq_none_iff {pat s : Bytes} :
    firstIdxOf pat s = none ↔ ∀ j, ¬ occursAt pat s j := by
  induction s with
  | nil =>
    by_cases hc : ([] : Bytes).take pat.length = pat
    · simp only [firstIdxOf, if_pos hc]
      constructor
      · rintro ⟨⟩
      · intro h; exact absurd (by simpa [occursAt] using hc) (h 0)
    · simp only [firstIdxOf, if_neg hc]
      refine iff_of_true (by simp) ?_
      intro j hocc
      exact hc (by simpa [occursAt] using hocc)
  | cons c t ih =>
    by_cases hc : (c :: t).take pat.length = pat
    · simp only [firstIdxOf, if_pos hc]
      constructor
      · rintro ⟨⟩
      · intro h; exact absurd (by simpa [occursAt] using hc) (h 0)
    · simp only [firstIdxOf, if_neg hc, Option.map_eq_none']
      rw [ih]
      constructor
      · intro h j
        cases j with
        | zero => exact fun hocc0 => hc (by simpa [occursAt] using hocc0)
        | succ j => exact fun hocc => h j ((occursAt_cons_succ ..).mp hocc)
      · intro h j hocc
        exact h (j + 1) ((occursAt_cons_succ ..).mpr hocc)

theorem lastIdxOf_eq_none_iff {pat s : Bytes} :
    lastIdxOf pat s = none ↔ ∀ j, ¬ occursAt pat s j := by
  induction s with
  | nil =>
    by_cases hc : ([] : Bytes).take pat.length = pat
    · simp only [lastIdxOf, if_pos hc]
      constructor
      · rintro ⟨⟩
      · intro h; exact absurd (by simpa [occursAt] using hc) (h 0)
    · simp only [lastIdxOf, if_neg hc]
      refine iff_of_true (by simp) ?_
      intro j hocc
      exact hc (by simpa [occursAt] using hocc)
  | cons c t ih =>
    simp only [lastIdxOf]
    cases hlt : lastIdxOf pat t with
    | some j =>
      simp only
      constructor
      · rintro ⟨⟩
      · intro h
        have := ih.mpr fun j hocc => h (j + 1) ((occursAt_cons_succ ..).mpr hocc)
        rw [this] at hlt
        exact absurd hlt (by simp)
    | none =>
      by_cases hc : (c :: t).take pat.length = pat
      · simp only [if_pos hc]
        constructor
        · rintro ⟨⟩
        · intro h; exact absurd (by simpa [occursAt] using hc) (h 0)
      · simp only [if_neg hc]
        refine iff_of_true (by simp) ?_
        intro j
        cases j with
        | zero => exact fun hocc0 => hc (by simpa [occursAt] using hocc0)
        | succ j =>
          rw [occursAt_cons_succ]
          exact ih.mp hlt j

theorem lastIdxOf_eq_some_iff {pat : Bytes} (hp : pat ≠ []) {s : Bytes} {i : Nat} :
    lastIdxOf pat s = some i ↔ occursAt pat s i ∧ ∀ j, occursAt pat s j → j ≤ i := by
  induction s generalizing i with
  | nil =>
    have hc : ¬ (([] : Bytes).take pat.length = pat) := by
      simpa [eq_comm] using hp
    simp only [lastIdxOf, if_neg hc]
    constructor
    · rintro ⟨⟩
    · rintro ⟨hocc, -⟩
      exact absurd (by simpa [occursAt] using hocc) hc
  | cons c t ih =>
    simp only [lastIdxOf]
    cases hlt : lastIdxOf pat t with
    | some j =>
      obtain ⟨hocc, hall⟩ := ih.mp hlt
      simp only [Option.some.injEq]
      constructor
      · rintro rfl
        refine ⟨(occursAt_cons_succ ..).mpr hocc, ?_⟩
        intro j' hj'
        cases j' with
        | zero => omega
        | succ j' => exact Nat.succ_le_succ (hall j' ((occursAt_cons_succ ..).mp hj'))
      · rintro ⟨hocci, halli⟩
        cases i with
        | zero =>
          have := halli (j + 1) ((occursAt_cons_succ ..).mpr hocc)
          omega
        | succ i =>
          have h1 : lastIdxOf pat t = some i := by
            refine ih.mpr ⟨(occursAt_cons_succ ..).mp hocci, ?_⟩
            intro j' hj'
            have := halli (j' + 1) ((occursAt_cons_succ ..).mpr hj')
            omega
          rw [hlt] at h1
          simpa using h1
    | none =>
      have hnone : ∀ j, ¬ occursAt pat t j := lastIdxOf_eq_none_iff.mp hlt
      by_cases hc : (c :: t).take pat.length = pat
      · simp only [if_pos hc, Option.some.injEq]
        constructor
        · rintro rfl
          refine ⟨by simpa [occursAt] using hc, ?_⟩
          intro j hj
          cases j with
          | zero => omega
          | succ j => exact absurd ((occursAt_cons_succ ..).mp hj) (hnone j)
        · rintro ⟨hocci, -⟩
          cases i with
          | zero => rfl
          | succ i => exact absurd ((occursAt_cons_succ ..).mp hocci) (hnone i)
      · simp only [if_neg hc]
        constructor
        · rintro ⟨⟩
        · rintro ⟨hocci, -⟩
          cases i with
          | zero => exact absurd (by simpa [occursAt] using hocci) hc
          | succ i => exact absurd ((occursAt_cons_succ ..).mp hocci) (hnone i)

/-! ### Size codec lemmas -/

theorem ilog1024Aux_bracket :
    ∀ fuel n, 1 ≤ n → n ≤ fuel →
      1024 ^ ilog1024Aux fuel n ≤ n ∧ n < 1024 ^ (ilog1024Aux fuel n + 1) := by
  intro fuel
  induction fuel with
  | zero => intro n h1 h2; omega
  | succ fuel ih =>
    intro n h1 h2
    by_cases hlt : n < 1024
    · simp only [ilog1024Aux, if_pos hlt, pow_zero, pow_one]
      exact ⟨h1, hlt⟩
    · simp only [ilog1024Aux, if_neg hlt]
      have h1' : 1 ≤ n / 1024 := (Nat.one_le_div_iff (by norm_num)).mpr (le_of_not_lt hlt)
      have h2' : n / 1024 ≤ fuel := by
        have := Nat.div_lt_self (by omega : 0 < n) (by norm_num : 1 < 1024)
        omega
      obtain ⟨lo, hi⟩ := ih (n / 1024) h1' h2'
      constructor
      · calc 1024 ^ (ilog1024Aux fuel (n / 1024) + 1)
            = 1024 ^ ilog1024Aux fuel (n / 1024) * 1024 := by rw [pow_succ]
          _ ≤ n / 1024 * 1024 := Nat.mul_le_mul_right _ lo
          _ ≤ n := Nat.div_mul_le_self n 1024
      · have hmod := Nat.div_add_mod n 1024
        have hmlt : n % 1024 < 1024 := Nat.mod_lt _ (by norm_num)
        have hstep : n < 1024 * (n / 1024 + 1) := by omega
        calc n < 1024 * (n / 1024 + 1) := hstep
          _ ≤ 1024 * 1024 ^ (ilog1024Aux fuel (n / 1024) + 1) := by
              exact Nat.mul_le_mul_left _ (by omega)
          _ = 1024 ^ (ilog1024Aux fuel (n / 1024) + 1 + 1) := by ring

theorem ilog1024_bracket {n : Nat} (h : 1 ≤ n) :
    1024 ^ ilog1024 n ≤ n ∧ n < 1024 ^ (ilog1024 n + 1) :=
  ilog1024Aux_bracket n n h le_rfl

theorem ilog1024_le_three {n : Nat} (h1 : 1 ≤ n) (h4 : n < 1024 ^ 4) : ilog1024 n ≤ 3 := by
  by_contra hgt
  have h4le : 4 ≤ ilog1024 n := by omega
  have : (1024 : Nat) ^ 4 ≤ 1024 ^ ilog1024 n := Nat.pow_le_pow_right (by norm_num) h4le
  have := (ilog1024_bracket h1).1
  omega

theorem unitFactor_sizes {i : Nat} (h : i ≤ 3) :
    unitFactor (sizes.getD i "undefined") = (1024 : ℚ) ^ i := by
  interval_cases i <;> norm_num [sizes, unitFactor]

theorem parseFileSize_eq_mul (s : SizeStr) : parseFileSize s = s.value * unitFactor s.unit := by
  rw [parseFileSize]
  by_cases h : s.unit = "Bytes"
  · rw [if_pos h, h, show unitFactor "Bytes" = 1 from rfl, mul_one]
  · rw [if_neg h]

theorem toFixed2_dist (q : ℚ) : |toFixed2 q - q| ≤ 1 / 200 := by
  have h := abs_sub_round (q * 100)
  rw [abs_sub_comm] at h
  rw [toFixed2]
  have heq : (round (q * 100) : ℚ) / 100 - q = ((round (q * 100) : ℚ) - q * 100) / 100 := by
    ring
  rw [heq, abs_div, show |(100 : ℚ)| = 100 by norm_num,
    show (1 : ℚ) / 200 = (1 / 2) / 100 by norm_num]
  exact div_le_div_of_nonneg_right h (by norm_num) |>.trans_eq rfl

theorem formatFileSize_pos {n : Nat} (h : n ≠ 0) :
    formatFileSize n =
      ⟨toFixed2 ((n : ℚ) / 1024 ^ ilog1024 n), sizes.getD (ilog1024 n) "undefined"⟩ := by
  rw [formatFileSize, if_neg h]

theorem parse_format_dist (n : Nat) (h4 : n < 1024 ^ 4) :
    |parseFileSize (formatFileSize n) - (n : ℚ)| ≤ (1024 : ℚ) ^ ilog1024 n / 200 := by
  rcases Nat.eq_zero_or_pos n with hz | hpos
  · subst hz
    simp only [formatFileSize, parseFileSize, if_pos rfl, Nat.cast_zero, sub_zero]
    norm_num
    positivity
  · have hi3 : ilog1024 n ≤ 3 := ilog1024_le_three hpos h4
    rw [formatFileSize_pos (by omega), parseFileSize_eq_mul]
    simp only
    rw [unitFactor_sizes hi3]
    have hpow : (0 : ℚ) < 1024 ^ ilog1024 n := by positivity
    have hq : ((n : ℚ) / 1024 ^ ilog1024 n) * 1024 ^ ilog1024 n = (n : ℚ) := by
      field_simp
    have hd := abs_le.mp (toFixed2_dist ((n : ℚ) / 1024 ^ ilog1024 n))
    have k3 : (toFixed2 ((n : ℚ) / 1024 ^ ilog1024 n) - (n : ℚ) / 1024 ^ ilog1024 n) *
        1024 ^ ilog1024 n = toFixed2 ((n : ℚ) / 1024 ^ ilog1024 n) * 1024 ^ ilog1024 n -
        (n : ℚ) := by
      rw [sub_mul, hq]
    have k1 := mul_le_mul_of_nonneg_right hd.2 hpow.le
    have k2 := mul_le_mul_of_nonneg_right hd.1 hpow.le
    rw [abs_le]
    constructor <;> linarith

theorem parse_format_le (n : Nat) (h4 : n < 1024 ^ 4) :
    parseFileSize (formatFileSize n) ≤ (n : ℚ) + (1024 : ℚ) ^ 3 / 200 := by
  have hd := parse_format_dist n h4
  have habs := abs_sub_le_iff.mp hd
  have hle : (1024 : ℚ) ^ ilog1024 n ≤ 1024 ^ 3 := by
    rcases Nat.eq_zero_or_pos n with hz | hpos
    · subst hz
      norm_num [ilog1024, ilog1024Aux]
    · exact pow_le_pow_right₀ (by norm_num) (ilog1024_le_three hpos h4)
  linarith [habs.1]

theorem parse_format_nonneg (n : Nat) (h4 : n < 1024 ^ 4) :
    0 ≤ parseFileSize (formatFileSize n) := by
  have hd := parse_format_dist n h4
  have habs := abs_sub_le_iff.mp hd
  rcases Nat.eq_zero_or_pos n with hz | hpos
  · subst hz
    norm_num [formatFileSize, parseFileSize]
  · have hlo := (ilog1024_bracket hpos).1
    have hloQ : (1024 : ℚ) ^ ilog1024 n ≤ (n : ℚ) := by
      exact_mod_cast hlo
    have hpow : (0 : ℚ) < 1024 ^ ilog1024 n := by positivity
    nlinarith [habs.2]

/-! ### Concrete size computations -/

theorem parseFileSize_undef (v : ℚ) : parseFileSize ⟨v, "undefined"⟩ = 0 := by
  rw [parseFileSize_eq_mul, show unitFactor "undefined" = 0 from rfl]
  ring

theorem formatFileSize_pow4 : formatFileSize (1024 ^ 4) = ⟨1, "undefined"⟩ := by
  rw [formatFileSize_pos (by norm_num)]
  rw [show ilog1024 (1024 ^ 4) = 4 from by decide]
  have hv : toFixed2 (((1024 ^ 4 : Nat) : ℚ) / 1024 ^ 4) = 1 := by
    rw [toFixed2, round_eq]
    norm_num
  rw [hv]
  rfl

theorem formatFileSize_big1 : formatFileSize 25624848630 = ⟨2387 / 100, "GB"⟩ := by
  rw [formatFileSize_pos (by norm_num)]
  rw [show ilog1024 25624848630 = 3 from by decide]
  have hv : toFixed2 (((25624848630 : Nat) : ℚ) / 1024 ^ 3) = 2387 / 100 := by
    rw [toFixed2, round_eq]
    norm_num
  rw [hv]
  rfl

theorem formatFileSize_100 : formatFileSize 100 = ⟨100, "Bytes"⟩ := by
  rw [formatFileSize_pos (by norm_num)]
  rw [show ilog1024 100 = 0 from by decide]
  have hv : toFixed2 (((100 : Nat) : ℚ) / 1024 ^ 0) = 100 := by
    rw [toFixed2, round_eq]
    norm_num
  rw [hv]
  rfl

theorem formatFileSize_10 : formatFileSize 10 = ⟨10, "Bytes"⟩ := by
  rw [formatFileSize_pos (by norm_num)]
  rw [show ilog1024 10 = 0 from by decide]
  have hv : toFixed2 (((10 : Nat) : ℚ) / 1024 ^ 0) = 10 := by
    rw [toFixed2, round_eq]
    norm_num
  rw [hv]
  rfl

theorem formatFileSize_7 : formatFileSize 7 = ⟨7, "Bytes"⟩ := by
  rw [formatFileSize_pos (by norm_num)]
  rw [show ilog1024 7 = 0 from by decide]
  have hv : toFixed2 (((7 : Nat) : ℚ) / 1024 ^ 0) = 7 := by
    rw [toFixed2, round_eq]
    norm_num
  rw [hv]
  rfl

theorem formatFileSize_big2 : formatFileSize 1207959552 = ⟨113 / 100, "GB"⟩ := by
  rw [formatFileSize_pos (by norm_num)]
  rw [show ilog1024 1207959552 = 3 from by decide]
  have hv : toFixed2 (((1207959552 : Nat) : ℚ) / 1024 ^ 3) = 113 / 100 := by
    rw [toFixed2, round_eq]
    norm_num
  rw [hv]
  rfl

/-! ### C2: size codec round trip -/

/-- C2 (corrected claim): for every byte count `n` below `1024^4`, the
decoded formatted size differs from `n` by at most 0.01 times the byte
factor of the selected unit, and the round trip is exact at `n = 0`.
(The original claim, quantified over all non-negative `n`, fails at
`n = 1024^4`, where the selected unit falls outside the scale and the
decoded value is 0.) -/
theorem c2_roundtrip_within_tolerance (n : Nat) (h4 : n < 1024 ^ 4) :
    |parseFileSize (formatFileSize n) - (n : ℚ)| ≤
      1 / 100 * unitFactor (formatFileSize n).unit ∧
    (n = 0 → parseFileSize (formatFileSize n) = (n : ℚ)) := by
  constructor
  · rcases Nat.eq_zero_or_pos n with hz | hpos
    · subst hz
      rw [show formatFileSize 0 = ⟨0, "Bytes"⟩ from rfl]
      rw [show parseFileSize ⟨0, "Bytes"⟩ = 0 by rw [parseFileSize_eq_mul]; ring]
      rw [show (⟨0, "Bytes"⟩ : SizeStr).unit = "Bytes" from rfl]
      rw [show unitFactor "Bytes" = 1 from rfl]
      norm_num
    · have hi3 : ilog1024 n ≤ 3 := ilog1024_le_three hpos h4
      have hu : (formatFileSize n).unit = sizes.getD (ilog1024 n) "undefined" := by
        rw [formatFileSize_pos (by omega)]
      rw [hu, unitFactor_sizes hi3]
      have hd := parse_format_dist n h4
      have hpow : (0 : ℚ) < 1024 ^ ilog1024 n := by positivity
      linarith
  · rintro rfl
    rw [show formatFileSize 0 = ⟨0, "Bytes"⟩ from rfl]
    rw [show parseFileSize ⟨0, "Bytes"⟩ = 0 by rw [parseFileSize_eq_mul]; ring]
    norm_num

/-- C2 witness: the tolerance theorem applied at the concrete count 1500. -/
theorem c2_roundtrip_within_tolerance_witness :
    (1500 : Nat) < 1024 ^ 4 ∧
    (|parseFileSize (formatFileSize 1500) - ((1500 : Nat) : ℚ)| ≤
      1 / 100 * unitFactor (formatFileSize 1500).unit ∧
      ((1500 : Nat) = 0 → parseFileSize (formatFileSize 1500) = ((1500 : Nat) : ℚ))) :=
  ⟨by norm_num, c2_roundtrip_within_tolerance 1500 (by norm_num)⟩

/-- C2 counterexample: at `n = 1024^4` the unit index falls off the scale
(`sizes[4]` is `undefined`), `parseFileSize` decodes the result to 0, and
the round trip misses `n` by `1024^4` — far beyond 0.01 times any unit
factor, refuting the claim as stated for all non-negative `n`. -/
theorem c2_counterexample :
    ¬ (|parseFileSize (formatFileSize (1024 ^ 4)) - ((1024 ^ 4 : Nat) : ℚ)| ≤
      1 / 100 * unitFactor (formatFileSize (1024 ^ 4)).unit) := by
  rw [formatFileSize_pow4, parseFileSize_undef]
  rw [show (⟨1, "undefined"⟩ : SizeStr).unit = "undefined" from rfl]
  rw [show unitFactor "undefined" = 0 from rfl]
  norm_num

/-! ### C6: formatFileSize unit selection -/

/-- C6 (corrected claim): `formatFileSize 0 = "0 Bytes"`; for
`0 < bytes < 1024^4` the selected exponent is the largest `k` with
`1024^k ≤ bytes`, the unit is `sizes[k]`, and the value is the quotient
rounded to two decimals; but for `bytes ≥ 1024^4` the computed index runs
past the end of the scale and the unit label is `undefined` — the scale is
not clamped at GB as the original claim states. -/
theorem c6_format_selects_unit (bytes : Nat) (hpos : 0 < bytes) :
    formatFileSize 0 = ⟨0, "Bytes"⟩ ∧
    (bytes < 1024 ^ 4 →
      ∃ k, k ≤ 3 ∧ 1024 ^ k ≤ bytes ∧ (∀ j, 1024 ^ j ≤ bytes → j ≤ k) ∧
        (formatFileSize bytes).unit = sizes.getD k "undefined" ∧
        (formatFileSize bytes).value = toFixed2 ((bytes : ℚ) / 1024 ^ k)) ∧
    (1024 ^ 4 ≤ bytes →
      4 ≤ ilog1024 bytes ∧ (formatFileSize bytes).unit = "undefined") := by
  refine ⟨rfl, ?_, ?_⟩
  · intro h4
    obtain ⟨hlo, hhi⟩ := ilog1024_bracket hpos
    refine ⟨ilog1024 bytes, ilog1024_le_three hpos h4, hlo, ?_, ?_, ?_⟩
    · intro j hj
      by_contra hgt
      have : (1024 : Nat) ^ (ilog1024 bytes + 1) ≤ 1024 ^ j :=
        Nat.pow_le_pow_right (by norm_num) (by omega)
      omega
    · rw [formatFileSize_pos (by omega)]
    · rw [formatFileSize_pos (by omega)]
  · intro h4
    obtain ⟨hlo, hhi⟩ := ilog1024_bracket hpos
    have hge : 4 ≤ ilog1024 bytes := by
      by_contra hlt
      have : (1024 : Nat) ^ (ilog1024 bytes + 1) ≤ 1024 ^ 4 :=
        Nat.pow_le_pow_right (by norm_num) (by omega)
      omega
    refine ⟨hge, ?_⟩
    rw [formatFileSize_pos (by omega)]
    exact List.getD_eq_default _ _ (by simp [sizes]; omega)

/-- C6 witness: the unit-selection theorem applied at the concrete count
2048 (which formats as `2 KB`). -/
theorem c6_format_selects_unit_witness :
    (0 : Nat) < 2048 ∧
    (formatFileSize 0 = ⟨0, "Bytes"⟩ ∧
    ((2048 : Nat) < 1024 ^ 4 →
      ∃ k, k ≤ 3 ∧ 1024 ^ k ≤ 2048 ∧ (∀ j, 1024 ^ j ≤ 2048 → j ≤ k) ∧
        (formatFileSize 2048).unit = sizes.getD k "undefined" ∧
        (formatFileSize 2048).value = toFixed2 ((2048 : ℚ) / 1024 ^ k)) ∧
    (1024 ^ 4 ≤ (2048 : Nat) →
      4 ≤ ilog1024 2048 ∧ (formatFileSize 2048).unit = "undefined")) :=
  ⟨by norm_num, c6_format_selects_unit 2048 (by norm_num)⟩

/-- C6 counterexample: `1024^4 ≥ 1024^3`, yet `formatFileSize (1024^4)` does
not carry the top unit `GB` — its unit is the out-of-scale label
`undefined`, refuting the claimed clamping. -/
theorem c6_counterexample :
    1024 ^ 3 ≤ (1024 ^ 4 : Nat) ∧ (formatFileSize (1024 ^ 4)).unit ≠ "GB" := by
  refine ⟨by norm_num, ?_⟩
  rw [formatFileSize_pow4]
  decide

/-! ### Store infrastructure lemmas -/

theorem takeWhile_all {p : Nat → Bool} : ∀ {l : Bytes}, (∀ a ∈ l, p a = true) →
    l.takeWhile p = l
  | [], _ => rfl
  | c :: t, h => by
    rw [List.takeWhile_cons, if_pos (h c (by simp))]
    rw [takeWhile_all fun a ha => h a (by simp [ha])]

theorem takeWhile_append_stop {p : Nat → Bool} {c : Nat} (hc : p c = false) :
    ∀ {a : Bytes} (b : Bytes), (∀ x ∈ a, p x = true) → (a ++ c :: b).takeWhile p = a
  | [], b, _ => by simp [List.takeWhile_cons, hc]
  | x :: t, b, ha => by
    rw [List.cons_append, List.takeWhile_cons, if_pos (ha x (by simp))]
    rw [takeWhile_append_stop hc b fun y hy => ha y (by simp [hy])]

theorem extAfterLastDot_no_dot {s : Bytes} (h : (46 : Nat) ∉ s) : extAfterLastDot s = s := by
  rw [extAfterLastDot, takeWhile_all, List.reverse_reverse]
  intro a ha
  have hm : a ∈ s := List.mem_reverse.mp ha
  exact bne_iff_ne.mpr fun e => h (e ▸ hm)

theorem extAfterLastDot_ends_dot (pre : Bytes) : extAfterLastDot (pre ++ [46]) = [] := by
  rw [extAfterLastDot, List.reverse_append]
  simp [List.takeWhile_cons]

theorem extAfterLastDot_dot_suffix {pre suf : Bytes} (h : (46 : Nat) ∉ suf) :
    extAfterLastDot (pre ++ 46 :: suf) = suf := by
  rw [extAfterLastDot, List.reverse_append, List.reverse_cons, List.append_assoc,
    List.singleton_append]
  have ha : ∀ y ∈ suf.reverse, (y != 46) = true := by
    intro y hy
    refine bne_iff_ne.mpr fun e => h ?_
    rw [← e]
    exact List.mem_reverse.mp hy
  rw [takeWhile_append_stop (by decide) _ ha]
  exact List.reverse_reverse suf

theorem getTotal_foldl_init (c : ℚ) (l : List FileRecord) :
    l.foldl (fun t f => t + parseFileSize f.size) c = c + getTotalStorageUsed l := by
  induction l generalizing c with
  | nil => simp [getTotalStorageUsed]
  | cons f t ih =>
    rw [getTotalStorageUsed, List.foldl_cons, List.foldl_cons, ih, ih]
    ring

theorem getTotal_append_one (l : List FileRecord) (f : FileRecord) :
    getTotalStorageUsed (l ++ [f]) = getTotalStorageUsed l + parseFileSize f.size := by
  rw [getTotalStorageUsed, List.foldl_append, List.foldl_cons, List.foldl_nil,
    getTotal_foldl_init]
  rw [zero_add]

theorem uploadStep_quota_reject (σ : Vault) (u : UploadIn)
    (h : getTotalStorageUsed σ.files + (u.bytes : ℚ) > totalBytes) :
    (uploadStep σ u).1 = .quotaExceeded ∧
    (uploadStep σ u).2.files = σ.files ∧
    (u.unlinkOk = true → (uploadStep σ u).2.blobs = σ.blobs) ∧
    (u.unlinkOk = false → (uploadStep σ u).2.blobs = σ.blobs ++ [u.path]) := by
  have e : uploadStep σ u = (.quotaExceeded,
      { files := σ.files, blobs := if u.unlinkOk then σ.blobs else σ.blobs ++ [u.path] }) := by
    simp only [uploadStep]
    rw [if_pos h]
  rw [e]
  refine ⟨rfl, rfl, ?_, ?_⟩
  · intro hu
    simp [hu]
  · intro hu
    simp [hu]

theorem uploadStep_files (σ : Vault) (u : UploadIn) :
    (uploadStep σ u).2.files = σ.files ∨
    ((uploadStep σ u).2.files = σ.files ++ [mkNewFile u.now u.originalname u.path u.bytes] ∧
      ¬ (getTotalStorageUsed σ.files + (u.bytes : ℚ) > totalBytes)) := by
  simp only [uploadStep]
  by_cases hq : getTotalStorageUsed σ.files + (u.bytes : ℚ) > totalBytes
  · rw [if_pos hq]
    left
    rfl
  · rw [if_neg hq]
    cases hs : u.saveOk
    · rw [if_neg (by simp [hs])]
      left
      rfl
    · rw [if_pos (by simp [hs])]
      right
      exact ⟨rfl, hq⟩

theorem uploadStep_inv (σ : Vault) (u : UploadIn)
    (h0 : 0 ≤ getTotalStorageUsed σ.files)
    (h1 : getTotalStorageUsed σ.files ≤ totalBytes + 1024 ^ 3 / 200) :
    0 ≤ getTotalStorageUsed ((uploadStep σ u).2).files ∧
    getTotalStorageUsed ((uploadStep σ u).2).files ≤ totalBytes + 1024 ^ 3 / 200 := by
  rcases uploadStep_files σ u with heq | ⟨heq, hq⟩
  · rw [heq]
    exact ⟨h0, h1⟩
  · rw [heq, getTotal_append_one,
      show (mkNewFile u.now u.originalname u.path u.bytes).size = formatFileSize u.bytes
        from rfl]
    push_neg at hq
    have hn : (u.bytes : ℚ) ≤ totalBytes := by linarith
    have hn4 : u.bytes < 1024 ^ 4 := by
      have hn' : (u.bytes : ℚ) ≤ ((26843545600 : Nat) : ℚ) := by
        rw [totalBytes] at hn
        push_cast
        linarith
      have hcn : u.bytes ≤ 26843545600 := by exact_mod_cast hn'
      have hpow : (1024 : Nat) ^ 4 = 1099511627776 := by norm_num
      omega
    have hle := parse_format_le u.bytes hn4
    have hnn := parse_format_nonneg u.bytes hn4
    constructor
    · linarith
    · linarith

theorem runUploads_inv : ∀ (reqs : List UploadIn) (σ : Vault),
    0 ≤ getTotalStorageUsed σ.files →
    getTotalStorageUsed σ.files ≤ totalBytes + 1024 ^ 3 / 200 →
    0 ≤ getTotalStorageUsed (runUploads σ reqs).files ∧
    getTotalStorageUsed (runUploads σ reqs).files ≤ totalBytes + 1024 ^ 3 / 200 := by
  intro reqs
  induction reqs with
  | nil => intro σ h0 h1; exact ⟨h0, h1⟩
  | cons u t ih =>
    intro σ h0 h1
    obtain ⟨g0, g1⟩ := uploadStep_inv σ u h0 h1
    exact ih (uploadStep σ u).2 g0 g1

theorem findIdx?_props {l : List FileRecord} {p : FileRecord → Bool} {i : Nat}
    (h : List.findIdx? p l = some i) : i < l.length ∧ p (l.getD i default) = true := by
  obtain ⟨hlen, hp, -⟩ := List.findIdx?_eq_some_iff_getElem.mp h
  exact ⟨hlen, by rw [List.getD_eq_getElem _ _ hlen]; exact hp⟩

theorem spliceIn_spliceOut {l : List FileRecord} {i : Nat} (h : i < l.length) :
    spliceIn (spliceOut l i) i (l.getD i default) = l := by
  rw [spliceIn, spliceOut]
  have h1 : (l.take i).length = i := by
    rw [List.length_take]
    exact min_eq_left h.le
  rw [List.take_left' h1, List.drop_left' h1]
  rw [List.getD_eq_getElem _ _ h, ← List.drop_eq_getElem_cons h]
  exact List.take_append_drop i l

theorem getD_mem {l : List FileRecord} {i : Nat} (h : i < l.length) :
    l.getD i default ∈ l := by
  rw [List.getD_eq_getElem _ _ h]
  exact List.getElem_mem h

/-! ### C4: quota rejection path -/

/-- C4: when the candidate total (current decoded usage plus the new blob's
byte length) exceeds the 25 GiB capacity, the upload fails with
`QuotaExceeded`, the snapshot is unchanged, the just-written blob is deleted
(and a deletion failure is swallowed, leaving the blob orphaned but the
outcome otherwise identical), and no save is attempted: the outcome does not
depend on the save oracle. -/
theorem c4_quota_rejection (σ : Vault) (u : UploadIn)
    (h : getTotalStorageUsed σ.files + (u.bytes : ℚ) > totalBytes) :
    (uploadStep σ u).1 = .quotaExceeded ∧
    (uploadStep σ u).2.files = σ.files ∧
    (u.unlinkOk = true → (uploadStep σ u).2.blobs = σ.blobs) ∧
    (u.unlinkOk = false → (uploadStep σ u).2.blobs = σ.blobs ++ [u.path]) ∧
    (∀ s1 s2 : Bool,
      uploadStep σ { u with saveOk := s1 } = uploadStep σ { u with saveOk := s2 }) := by
  obtain ⟨a, b, c, d⟩ := uploadStep_quota_reject σ u h
  refine ⟨a, b, c, d, ?_⟩
  intro s1 s2
  have h1 : getTotalStorageUsed σ.files + (({ u with saveOk := s1 } : UploadIn).bytes : ℚ) >
      totalBytes := h
  have h2 : getTotalStorageUsed σ.files + (({ u with saveOk := s2 } : UploadIn).bytes : ℚ) >
      totalBytes := h
  simp only [uploadStep]
  rw [if_pos h1, if_pos h2]

/-- C4 witness: the rejection theorem applied to a store already holding a
25 GB record when a 1-byte upload arrives. -/
theorem c4_quota_rejection_witness :
    getTotalStorageUsed c4vault.files + (c4in.bytes : ℚ) > totalBytes ∧
    ((uploadStep c4vault c4in).1 = .quotaExceeded ∧
    (uploadStep c4vault c4in).2.files = c4vault.files ∧
    (c4in.unlinkOk = true → (uploadStep c4vault c4in).2.blobs = c4vault.blobs) ∧
    (c4in.unlinkOk = false → (uploadStep c4vault c4in).2.blobs = c4vault.blobs ++ [c4in.path]) ∧
    (∀ s1 s2 : Bool,
      uploadStep c4vault { c4in with saveOk := s1 } =
        uploadStep c4vault { c4in with saveOk := s2 })) := by
  have h : getTotalStorageUsed c4vault.files + (c4in.bytes : ℚ) > totalBytes := by
    norm_num [getTotalStorageUsed, c4vault, c4in, totalBytes, parseFileSize_eq_mul, unitFactor]
  exact ⟨h, c4_quota_rejection c4vault c4in h⟩

/-! ### C3: quota invariant -/

/-- C3 (corrected claim): over any sequence of uploads from the empty store,
the decoded total of stored record sizes stays below capacity plus the
2-decimal rounding slack `1024^3 / 200` bytes (but not below capacity
itself, which the original claim wrongly states), and an upload whose
candidate total exceeds capacity is rejected: no record is created and,
when blob deletion succeeds, the stored blob set is unchanged. -/
theorem c3_quota_bounded :
    (∀ reqs : List UploadIn,
      getTotalStorageUsed (runUploads emptyVault reqs).files ≤ totalBytes + 1024 ^ 3 / 200) ∧
    (∀ (σ : Vault) (u : UploadIn),
      getTotalStorageUsed σ.files + (u.bytes : ℚ) > totalBytes →
        (uploadStep σ u).1 = .quotaExceeded ∧
        (uploadStep σ u).2.files = σ.files ∧
        (u.unlinkOk = true → (uploadStep σ u).2.blobs = σ.blobs)) := by
  constructor
  · intro reqs
    have h := runUploads_inv reqs emptyVault
      (by norm_num [getTotalStorageUsed, emptyVault])
      (by norm_num [getTotalStorageUsed, emptyVault, totalBytes])
    exact h.2
  · intro σ u h
    obtain ⟨a, b, c, -⟩ := uploadStep_quota_reject σ u h
    exact ⟨a, b, c⟩

/-- C3 witness: the invariant applied to the three-upload drift sequence,
and the rejection part applied to a full store. -/
theorem c3_quota_bounded_witness :
    getTotalStorageUsed (runUploads emptyVault [c3u1, c3u2, c3u3]).files ≤
      totalBytes + 1024 ^ 3 / 200 ∧
    ((uploadStep c4vault c4in).1 = .quotaExceeded ∧
    (uploadStep c4vault c4in).2.files = c4vault.files ∧
    (c4in.unlinkOk = true → (uploadStep c4vault c4in).2.blobs = c4vault.blobs)) := by
  have h : getTotalStorageUsed c4vault.files + (c4in.bytes : ℚ) > totalBytes := by
    norm_num [getTotalStorageUsed, c4vault, c4in, totalBytes, parseFileSize_eq_mul, unitFactor]
  exact ⟨c3_quota_bounded.1 [c3u1, c3u2, c3u3], c3_quota_bounded.2 c4vault c4in h⟩

/-- C3 counterexample: three uploads (23.87 GB-formatted, 100 bytes,
1.13 GB-formatted) are all accepted starting from the empty store, yet the
decoded total of the stored records afterwards exceeds the 25 GiB capacity
(by 100 bytes), refuting the claimed invariant as stated. -/
theorem c3_counterexample :
    isAccepted (uploadStep emptyVault c3u1).1 = true ∧
    isAccepted (uploadStep (uploadStep emptyVault c3u1).2 c3u2).1 = true ∧
    isAccepted (uploadStep (uploadStep (uploadStep emptyVault c3u1).2 c3u2).2 c3u3).1 = true ∧
    runUploads emptyVault [c3u1, c3u2, c3u3] =
      (uploadStep (uploadStep (uploadStep emptyVault c3u1).2 c3u2).2 c3u3).2 ∧
    totalBytes < getTotalStorageUsed (runUploads emptyVault [c3u1, c3u2, c3u3]).files := by
  have hv1 : parseFileSize (formatFileSize 25624848630) = 2387 / 100 * (1024 * 1024 * 1024) := by
    rw [formatFileSize_big1, parseFileSize_eq_mul]
    rfl
  have hv2 : parseFileSize (formatFileSize 100) = 100 := by
    rw [formatFileSize_100, parseFileSize]
    rfl
  have hv3 : parseFileSize (formatFileSize 1207959552) = 113 / 100 * (1024 * 1024 * 1024) := by
    rw [formatFileSize_big2, parseFileSize_eq_mul]
    rfl
  have hq1 : ¬ (getTotalStorageUsed emptyVault.files + (c3u1.bytes : ℚ) > totalBytes) := by
    norm_num [getTotalStorageUsed, emptyVault, c3u1, totalBytes]
  have e1 : uploadStep emptyVault c3u1 =
      (.ok (mkNewFile 1 (strBytes "a.bin") (strBytes "p1") 25624848630),
       ⟨[mkNewFile 1 (strBytes "a.bin") (strBytes "p1") 25624848630], [strBytes "p1"]⟩) := by
    simp only [uploadStep]
    rw [if_neg hq1, if_pos (show c3u1.saveOk = true from rfl)]
    rfl
  have hS1 : getTotalStorageUsed
      [mkNewFile 1 (strBytes "a.bin") (strBytes "p1") 25624848630] =
      2387 / 100 * (1024 * 1024 * 1024) := by
    simp only [getTotalStorageUsed, List.foldl_cons, List.foldl_nil]
    rw [show (mkNewFile 1 (strBytes "a.bin") (strBytes "p1") 25624848630).size =
      formatFileSize 25624848630 from rfl, hv1]
    ring
  have hq2 : ¬ (getTotalStorageUsed
      [mkNewFile 1 (strBytes "a.bin") (strBytes "p1") 25624848630] +
      (c3u2.bytes : ℚ) > totalBytes) := by
    rw [hS1]
    norm_num [c3u2, totalBytes]
  have e2 : uploadStep
      (⟨[mkNewFile 1 (strBytes "a.bin") (strBytes "p1") 25624848630], [strBytes "p1"]⟩ : Vault)
      c3u2 =
      (.ok (mkNewFile 2 (strBytes "b.bin") (strBytes "p2") 100),
       ⟨[mkNewFile 1 (strBytes "a.bin") (strBytes "p1") 25624848630,
         mkNewFile 2 (strBytes "b.bin") (strBytes "p2") 100],
        [strBytes "p1", strBytes "p2"]⟩) := by
    simp only [uploadStep]
    rw [if_neg hq2, if_pos (show c3u2.saveOk = true from rfl)]
    rfl
  have hS2 : getTotalStorageUsed
      [mkNewFile 1 (strBytes "a.bin") (strBytes "p1") 25624848630,
       mkNewFile 2 (strBytes "b.bin") (strBytes "p2") 100] =
      2387 / 100 * (1024 * 1024 * 1024) + 100 := by
    simp only [getTotalStorageUsed, List.foldl_cons, List.foldl_nil]
    rw [show (mkNewFile 1 (strBytes "a.bin") (strBytes "p1") 25624848630).size =
      formatFileSize 25624848630 from rfl, hv1]
    rw [show (mkNewFile 2 (strBytes "b.bin") (strBytes "p2") 100).size =
      formatFileSize 100 from rfl, hv2]
    ring
  have hq3 : ¬ (getTotalStorageUsed
      [mkNewFile 1 (strBytes "a.bin") (strBytes "p1") 25624848630,
       mkNewFile 2 (strBytes "b.bin") (strBytes "p2") 100] +
      (c3u3.bytes : ℚ) > totalBytes) := by
    rw [hS2]
    norm_num [c3u3, totalBytes]
  have e3 : uploadStep
      (⟨[mkNewFile 1 (strBytes "a.bin") (strBytes "p1") 25624848630,
         mkNewFile 2 (strBytes "b.bin") (strBytes "p2") 100],
        [strBytes "p1", strBytes "p2"]⟩ : Vault) c3u3 =
      (.ok (mkNewFile 3 (strBytes "c.bin") (strBytes "p3") 1207959552),
       ⟨[mkNewFile 1 (strBytes "a.bin") (strBytes "p1") 25624848630,
         mkNewFile 2 (strBytes "b.bin") (strBytes "p2") 100,
         mkNewFile 3 (strBytes "c.bin") (strBytes "p3") 1207959552],
        [strBytes "p1", strBytes "p2", strBytes "p3"]⟩) := by
    simp only [uploadStep]
    rw [if_neg hq3, if_pos (show c3u3.saveOk = true from rfl)]
    rfl
  have hrun : runUploads emptyVault [c3u1, c3u2, c3u3] =
      (uploadStep (uploadStep (uploadStep emptyVault c3u1).2 c3u2).2 c3u3).2 := rfl
  refine ⟨?_, ?_, ?_, hrun, ?_⟩
  · rw [e1]
    rfl
  · rw [e1]
    rw [show ((.ok (mkNewFile 1 (strBytes "a.bin") (strBytes "p1") 25624848630),
       ⟨[mkNewFile 1 (strBytes "a.bin") (strBytes "p1") 25624848630], [strBytes "p1"]⟩) :
         UploadResult × Vault).2 =
       ⟨[mkNewFile 1 (strBytes "a.bin") (strBytes "p1") 25624848630], [strBytes "p1"]⟩ from rfl]
    rw [e2]
    rfl
  · rw [e1]
    rw [show ((.ok (mkNewFile 1 (strBytes "a.bin") (strBytes "p1") 25624848630),
       ⟨[mkNewFile 1 (strBytes "a.bin") (strBytes "p1") 25624848630], [strBytes "p1"]⟩) :
         UploadResult × Vault).2 =
       ⟨[mkNewFile 1 (strBytes "a.bin") (strBytes "p1") 25624848630], [strBytes "p1"]⟩ from rfl]
    rw [e2]
    rw [show ((.ok (mkNewFile 2 (strBytes "b.bin") (strBytes "p2") 100),
       ⟨[mkNewFile 1 (strBytes "a.bin") (strBytes "p1") 25624848630,
         mkNewFile 2 (strBytes "b.bin") (strBytes "p2") 100],
        [strBytes "p1", strBytes "p2"]⟩) : UploadResult × Vault).2 =
       ⟨[mkNewFile 1 (strBytes "a.bin") (strBytes "p1") 25624848630,
         mkNewFile 2 (strBytes "b.bin") (strBytes "p2") 100],
        [strBytes "p1", strBytes "p2"]⟩ from rfl]
    rw [e3]
    rfl
  · rw [hrun, e1]
    rw [show ((.ok (mkNewFile 1 (strBytes "a.bin") (strBytes "p1") 25624848630),
       ⟨[mkNewFile 1 (strBytes "a.bin") (strBytes "p1") 25624848630], [strBytes "p1"]⟩) :
         UploadResult × Vault).2 =
       ⟨[mkNewFile 1 (strBytes "a.bin") (strBytes "p1") 25624848630], [strBytes "p1"]⟩ from rfl]
    rw [e2]
    rw [show ((.ok (mkNewFile 2 (strBytes "b.bin") (strBytes "p2") 100),
       ⟨[mkNewFile 1 (strBytes "a.bin") (strBytes "p1") 25624848630,
         mkNewFile 2 (strBytes "b.bin") (strBytes "p2") 100],
        [strBytes "p1", strBytes "p2"]⟩) : UploadResult × Vault).2 =
       ⟨[mkNewFile 1 (strBytes "a.bin") (strBytes "p1") 25624848630,
         mkNewFile 2 (strBytes "b.bin") (strBytes "p2") 100],
        [strBytes "p1", strBytes "p2"]⟩ from rfl]
    rw [e3]
    rw [show ((.ok (mkNewFile 3 (strBytes "c.bin") (strBytes "p3") 1207959552),
       ⟨[mkNewFile 1 (strBytes "a.bin") (strBytes "p1") 25624848630,
         mkNewFile 2 (strBytes "b.bin") (strBytes "p2") 100,
         mkNewFile 3 (strBytes "c.bin") (strBytes "p3") 1207959552],
        [strBytes "p1", strBytes "p2", strBytes "p3"]⟩) : UploadResult × Vault).2 =
       ⟨[mkNewFile 1 (strBytes "a.bin") (strBytes "p1") 25624848630,
         mkNewFile 2 (strBytes "b.bin") (strBytes "p2") 100,
         mkNewFile 3 (strBytes "c.bin") (strBytes "p3") 1207959552],
        [strBytes "p1", strBytes "p2", strBytes "p3"]⟩ from rfl]
    simp only [getTotalStorageUsed, List.foldl_cons, List.foldl_nil]
    rw [show (mkNewFile 1 (strBytes "a.bin") (strBytes "p1") 25624848630).size =
      formatFileSize 25624848630 from rfl, hv1]
    rw [show (mkNewFile 2 (strBytes "b.bin") (strBytes "p2") 100).size =
      formatFileSize 100 from rfl, hv2]
    rw [show (mkNewFile 3 (strBytes "c.bin") (strBytes "p3") 1207959552).size =
      formatFileSize 1207959552 from rfl, hv3]
    norm_num [totalBytes]

/-! ### C5: delete rollback on persistence failure -/

/-- C5: when the record with the requested id exists at index `i` and
persisting the shrunken snapshot fails, the delete route reinserts the
removed record at its original index — restoring the in-memory list to
exactly the original snapshot — fails with `PersistenceFailed`, leaves the
store (snapshot and blobs) untouched, and the record is still retrievable
from the resulting store by its id. -/
theorem c5_delete_rollback (σ : Vault) (fid : Nat) (unlinkOk : Bool) (i : Nat)
    (hfind : List.findIdx? (fun f => f.id == fid) σ.files = some i) :
    deleteStep σ fid false unlinkOk = ⟨.persistenceFailed, σ, σ.files⟩ ∧
    ∃ f, f ∈ (deleteStep σ fid false unlinkOk).vault.files ∧ f.id = fid := by
  obtain ⟨hlen, hp⟩ := findIdx?_props hfind
  have estep : deleteStep σ fid false unlinkOk = ⟨.persistenceFailed, σ, σ.files⟩ := by
    simp only [deleteStep, hfind]
    rw [if_neg (by simp)]
    rw [spliceIn_spliceOut hlen]
  refine ⟨estep, ?_⟩
  rw [estep]
  exact ⟨σ.files.getD i default, getD_mem hlen, by simpa using hp⟩

/-- C5 witness: the rollback theorem applied to a two-record store, deleting
id 2 with a failing save. -/
theorem c5_delete_rollback_witness :
    List.findIdx? (fun f => f.id == 2) c5vault.files = some 1 ∧
    (deleteStep c5vault 2 false true = ⟨.persistenceFailed, c5vault, c5vault.files⟩ ∧
     ∃ f, f ∈ (deleteStep c5vault 2 false true).vault.files ∧ f.id = 2) := by
  have h : List.findIdx? (fun f => f.id == 2) c5vault.files = some 1 := by
    rw [show c5vault.files = [c5rec1, c5rec2] from rfl]
    rw [List.findIdx?_cons]
    rw [if_neg (by decide)]
    rw [List.findIdx?_cons]
    rw [if_pos (by decide)]
  exact ⟨h, c5_delete_rollback c5vault 2 true 1 h⟩

/-! ### C9: the new record's fields -/

/-- C9 counterexample: the accepted upload of a file named `README` (no dot)
produces a record whose `type` is the whole name `README`, not `unknown` as
the claim states for extension-less filenames — `split('.').pop()` returns
the sole chunk, which is truthy. -/
theorem c9_counterexample :
    (uploadStep emptyVault c9in).1 =
      .ok (mkNewFile 5 (strBytes "README") (strBytes "p") 10) ∧
    (mkNewFile 5 (strBytes "README") (strBytes "p") 10).ftype = strBytes "README" ∧
    (mkNewFile 5 (strBytes "README") (strBytes "p") 10).ftype ≠ strBytes "unknown" := by
  have hq : ¬ (getTotalStorageUsed emptyVault.files + (c9in.bytes : ℚ) > totalBytes) := by
    norm_num [getTotalStorageUsed, emptyVault, c9in, totalBytes]
  refine ⟨?_, by decide, by decide⟩
  simp only [uploadStep]
  rw [if_neg hq, if_pos (show c9in.saveOk = true from rfl)]
  rfl

/-- C9 (corrected claim): an accepted, persisted upload appends exactly one
new record carrying the original name, the formatted size of the written
byte length, and the blob's path; its `type` is the suffix after the last
dot when that suffix is non-empty, the whole filename when the name has no
dot (not `unknown`, as the original claim states), and `unknown` exactly
when `split('.').pop()` is empty: for an empty filename or one ending in a
dot. -/
theorem c9_record_fields (σ : Vault) (u : UploadIn)
    (hq : ¬ (getTotalStorageUsed σ.files + (u.bytes : ℚ) > totalBytes))
    (hs : u.saveOk = true) :
    ∃ r, (uploadStep σ u).1 = .ok r ∧
      (uploadStep σ u).2.files = σ.files ++ [r] ∧
      r.name = u.originalname ∧
      r.size = formatFileSize u.bytes ∧
      r.path = u.path ∧
      (u.originalname = [] → r.ftype = strBytes "unknown") ∧
      (∀ pre : Bytes, u.originalname = pre ++ [46] → r.ftype = strBytes "unknown") ∧
      ((46 : Nat) ∉ u.originalname → u.originalname ≠ [] → r.ftype = u.originalname) ∧
      (∀ pre suf : Bytes, u.originalname = pre ++ 46 :: suf → (46 : Nat) ∉ suf →
        suf ≠ [] → r.ftype = suf) := by
  refine ⟨mkNewFile u.now u.originalname u.path u.bytes, ?_, ?_, rfl, rfl, rfl, ?_, ?_, ?_, ?_⟩
  · simp only [uploadStep]
    rw [if_neg hq, if_pos hs]
  · simp only [uploadStep]
    rw [if_neg hq, if_pos hs]
  · intro h
    show (if extAfterLastDot u.originalname = [] then strBytes "unknown"
      else extAfterLastDot u.originalname) = strBytes "unknown"
    rw [h]
    rfl
  · intro pre h
    show (if extAfterLastDot u.originalname = [] then strBytes "unknown"
      else extAfterLastDot u.originalname) = strBytes "unknown"
    rw [h, extAfterLastDot_ends_dot]
    rfl
  · intro hnd hne
    show (if extAfterLastDot u.originalname = [] then strBytes "unknown"
      else extAfterLastDot u.originalname) = u.originalname
    rw [extAfterLastDot_no_dot hnd, if_neg hne]
  · intro pre suf h hns hne
    show (if extAfterLastDot u.originalname = [] then strBytes "unknown"
      else extAfterLastDot u.originalname) = suf
    rw [h, extAfterLastDot_dot_suffix hns, if_neg hne]

/-- C9 witness: the record-fields theorem applied to an empty store and the
upload of the 7-byte file `a.tar.gz` — the extension is `gz`. -/
theorem c9_record_fields_witness :
    (∃ r, (uploadStep emptyVault c9win).1 = .ok r ∧
      (uploadStep emptyVault c9win).2.files = emptyVault.files ++ [r] ∧
      r.name = c9win.originalname ∧
      r.size = formatFileSize c9win.bytes ∧
      r.path = c9win.path ∧
      (c9win.originalname = [] → r.ftype = strBytes "unknown") ∧
      (∀ pre : Bytes, c9win.originalname = pre ++ [46] → r.ftype = strBytes "unknown") ∧
      ((46 : Nat) ∉ c9win.originalname → c9win.originalname ≠ [] →
        r.ftype = c9win.originalname) ∧
      (∀ pre suf : Bytes, c9win.originalname = pre ++ 46 :: suf → (46 : Nat) ∉ suf →
        suf ≠ [] → r.ftype = suf)) :=
  c9_record_fields emptyVault c9win
    (by norm_num [getTotalStorageUsed, emptyVault, c9win, totalBytes]) rfl

/-! ### Decoder infrastructure lemmas -/

theorem firstIdxOf_eq_none_occursIn {pat s : Bytes} :
    firstIdxOf pat s = none ↔ ¬ occursIn pat s := by
  rw [firstIdxOf_eq_none_iff]
  exact ⟨fun h ⟨j, hj⟩ => h j hj, fun h j hj => h ⟨j, hj⟩⟩

theorem lastIdxOf_eq_none_occursIn {pat s : Bytes} :
    lastIdxOf pat s = none ↔ ¬ occursIn pat s := by
  rw [lastIdxOf_eq_none_iff]
  exact ⟨fun h ⟨j, hj⟩ => h j hj, fun h j hj => h ⟨j, hj⟩⟩

theorem firstIdxOf_iff_isFirstOcc {pat s : Bytes} {i : Nat} :
    firstIdxOf pat s = some i ↔ isFirstOcc pat s i := by
  rw [firstIdxOf_eq_some_iff, isFirstOcc]
  constructor
  · rintro ⟨h1, h2⟩
    exact ⟨h1, fun j hj => not_lt.mp fun hlt => h2 j hlt hj⟩
  · rintro ⟨h1, h2⟩
    exact ⟨h1, fun j hlt hj => absurd (h2 j hj) (by omega)⟩

theorem lastIdxOf_iff_isLastOcc {pat : Bytes} (hp : pat ≠ []) {s : Bytes} {i : Nat} :
    lastIdxOf pat s = some i ↔ isLastOcc pat s i := by
  rw [lastIdxOf_eq_some_iff hp, isLastOcc]

theorem occursAt_of_occursAt_append {pat ext s : Bytes} {j : Nat}
    (h : occursAt (pat ++ ext) s j) : occursAt pat s j := by
  rw [occursAt] at h ⊢
  have h2 := congrArg (List.take pat.length) h
  rw [List.take_take, List.length_append, min_eq_left (by omega), List.take_left] at h2
  exact h2

theorem byteAt_append2 (a b : Bytes) (n : Nat) :
    byteAt (a ++ b) n = if n < a.length then byteAt a n else byteAt b (n - a.length) := by
  by_cases h : n < a.length
  · rw [if_pos h, byteAt_append_left _ _ _ h]
  · rw [if_neg h]
    obtain ⟨k, rfl⟩ : ∃ k, n = a.length + k := ⟨n - a.length, by omega⟩
    rw [byteAt_append_right]
    congr 1
    omega

theorem append_single_comm_all {B : Bytes} {c : Nat} :
    B ++ [c] = c :: B → ∀ x ∈ B, x = c := by
  induction B with
  | nil => intro _ x hx; cases hx
  | cons b t ih =>
    intro h x hx
    rw [List.cons_append] at h
    injection h with h1 h2
    subst h1
    rcases List.mem_cons.mp hx with hx | hx
    · exact hx
    · exact ih h2 x hx

theorem append_double_comm_all {B : Bytes} {c : Nat} :
    B ++ [c, c] = c :: c :: B → ∀ x ∈ B, x = c := by
  induction B with
  | nil => intro _ x hx; cases hx
  | cons b t ih =>
    intro h x hx
    rw [List.cons_append] at h
    injection h with h1 h2
    subst h1
    rcases List.mem_cons.mp hx with hx | hx
    · exact hx
    · exact ih h2 x hx

theorem matchFilename_eq_none_iff {s : Bytes} :
    matchFilename s = none ↔ ∀ i, capAt0 (s.drop i) = none := by
  induction s with
  | nil =>
    refine iff_of_true rfl fun i => ?_
    rw [List.drop_nil]
    decide
  | cons c t ih =>
    simp only [matchFilename]
    cases hc : capAt0 (c :: t) with
    | some cap =>
      refine iff_of_false (by simp) fun hall => ?_
      have h0 := hall 0
      rw [List.drop_zero, hc] at h0
      cases h0
    | none =>
      simp only
      rw [ih]
      constructor
      · intro hall i
        cases i with
        | zero => rw [List.drop_zero]; exact hc
        | succ i => exact hall i
      · intro hall i
        exact hall (i + 1)

theorem matchFilename_eq_some_iff {s cap : Bytes} :
    matchFilename s = some cap ↔
      ∃ i, capAt0 (s.drop i) = some cap ∧ ∀ j, j < i → capAt0 (s.drop j) = none := by
  induction s with
  | nil =>
    refine iff_of_false (by simp [matchFilename]) ?_
    rintro ⟨i, hi, -⟩
    rw [List.drop_nil] at hi
    rw [show capAt0 [] = none from by decide] at hi
    cases hi
  | cons c t ih =>
    simp only [matchFilename]
    cases hc : capAt0 (c :: t) with
    | some cap0 =>
      simp only [Option.some.injEq]
      constructor
      · rintro rfl
        exact ⟨0, by rwa [List.drop_zero], by omega⟩
      · rintro ⟨i, hi, hall⟩
        cases i with
        | zero =>
          rw [List.drop_zero, hc] at hi
          injection hi
        | succ i =>
          have h0 := hall 0 (by omega)
          rw [List.drop_zero, hc] at h0
          cases h0
    | none =>
      simp only
      rw [ih]
      constructor
      · rintro ⟨i, hi, hall⟩
        refine ⟨i + 1, hi, fun j hj => ?_⟩
        cases j with
        | zero => rw [List.drop_zero]; exact hc
        | succ j => exact hall j (by omega)
      · rintro ⟨i, hi, hall⟩
        cases i with
        | zero =>
          rw [List.drop_zero, hc] at hi
          cases hi
        | succ i => exact ⟨i, hi, fun j hj => hall (j + 1) (by omega)⟩

theorem capAt0_none_of_no_fnPat {s : Bytes} (h : ¬ s.take 10 = fnPat) : capAt0 s = none := by
  rw [capAt0, if_neg h]

/-! ### parseMultipart path evaluation lemmas -/

theorem parseMultipart_eval_notMultipart {ct body : Bytes}
    (h1 : firstIdxOf mfdBytes ct = none) :
    parseMultipart ct body = .err .notMultipart := by
  simp only [parseMultipart, if_pos h1]

theorem parseMultipart_eval_noBoundary {ct body : Bytes}
    (h1 : firstIdxOf mfdBytes ct ≠ none) (hb : getBoundary ct = none) :
    parseMultipart ct body = .err .noBoundary := by
  simp only [parseMultipart, if_neg h1, hb]

theorem parseMultipart_eval_invalidFormat {ct body b : Bytes}
    (h1 : firstIdxOf mfdBytes ct ≠ none) (hb : getBoundary ct = some b)
    (hcr : firstIdxOf crlf2Bytes body = none) :
    parseMultipart ct body = .err .invalidFormat := by
  simp only [parseMultipart, if_neg h1, hb, hcr]

theorem parseMultipart_eval_noEnd {ct body b : Bytes} {h : Nat}
    (h1 : firstIdxOf mfdBytes ct ≠ none) (hb : getBoundary ct = some b)
    (hcr : firstIdxOf crlf2Bytes body = some h)
    (hl : lastIdxOf ([45, 45] ++ b) body = none)
    (hl2 : lastIdxOf (([45, 45] ++ b) ++ [45, 45]) body = none) :
    parseMultipart ct body = .err .noFileBoundaries := by
  simp only [parseMultipart, if_neg h1, hb, hcr, hl, hl2]

theorem parseMultipart_eval_endFromFallback {ct body b : Bytes} {h e : Nat}
    (h1 : firstIdxOf mfdBytes ct ≠ none) (hb : getBoundary ct = some b)
    (hcr : firstIdxOf crlf2Bytes body = some h)
    (hl : lastIdxOf ([45, 45] ++ b) body = none)
    (hl2 : lastIdxOf (([45, 45] ++ b) ++ [45, 45]) body = some e)
    (hge : h + 4 ≥ e) :
    parseMultipart ct body = .err .noFileBoundaries := by
  simp only [parseMultipart, if_neg h1, hb, hcr, hl, hl2, if_pos hge]

theorem parseMultipart_eval_badRange {ct body b : Bytes} {h e : Nat}
    (h1 : firstIdxOf mfdBytes ct ≠ none) (hb : getBoundary ct = some b)
    (hcr : firstIdxOf crlf2Bytes body = some h)
    (hl : lastIdxOf ([45, 45] ++ b) body = some e)
    (hge : h + 4 ≥ e) :
    parseMultipart ct body = .err .noFileBoundaries := by
  simp only [parseMultipart, if_neg h1, hb, hcr, hl, if_pos hge]

theorem parseMultipart_eval_ok {ct body b : Bytes} {h e : Nat}
    (h1 : firstIdxOf mfdBytes ct ≠ none) (hb : getBoundary ct = some b)
    (hcr : firstIdxOf crlf2Bytes body = some h)
    (hl : lastIdxOf ([45, 45] ++ b) body = some e)
    (hlt : ¬ (h + 4 ≥ e)) :
    parseMultipart ct body =
      .ok ⟨(matchFilename body).getD [], (body.take (e - 2)).drop (h + 4),
        ((body.take (e - 2)).drop (h + 4)).length⟩ := by
  simp only [parseMultipart, if_neg h1, hb, hcr, hl, if_neg hlt]

theorem parseMultipart_eval_okFallback {ct body b : Bytes} {h e : Nat}
    (h1 : firstIdxOf mfdBytes ct ≠ none) (hb : getBoundary ct = some b)
    (hcr : firstIdxOf crlf2Bytes body = some h)
    (hl : lastIdxOf ([45, 45] ++ b) body = none)
    (hl2 : lastIdxOf (([45, 45] ++ b) ++ [45, 45]) body = some e)
    (hlt : ¬ (h + 4 ≥ e)) :
    parseMultipart ct body =
      .ok ⟨(matchFilename body).getD [], (body.take (e - 2)).drop (h + 4),
        ((body.take (e - 2)).drop (h + 4)).length⟩ := by
  simp only [parseMultipart, if_neg h1, hb, hcr, hl, hl2, if_neg hlt]

/-! ### C10: the fallback boundary search is dead code -/

/-- C10: the fallback search for the terminal boundary never changes the
decoder's end offset: since `--b` is a prefix of `--b--`, the plain
delimiter is absent exactly when the terminal one is, so the source's
two-step search (`lastIndexOf(boundaryBytes)`, falling back to
`lastIndexOf(boundaryEndBytes)`) always equals the plain search alone. -/
theorem c10_fallback_redundant (b body : Bytes) :
    (match lastIdxOf ([45, 45] ++ b) body with
     | some e => some e
     | none => lastIdxOf (([45, 45] ++ b) ++ [45, 45]) body) =
    lastIdxOf ([45, 45] ++ b) body := by
  cases h : lastIdxOf ([45, 45] ++ b) body with
  | some e => rfl
  | none =>
    simp only
    rw [lastIdxOf_eq_none_iff] at h ⊢
    intro j hj
    exact h j (occursAt_of_occursAt_append hj)

/-! ### C7: the decoder's failure cases, exactly -/

/-- C7: the decoder fails (with one of the `MalformedRequest` errors)
exactly when (a) the content type does not contain `multipart/form-data` or
no (non-empty) boundary parameter can be extracted; or (b) the body has no
CR LF CR LF header terminator; or (c) neither the plain delimiter `--b` nor
the terminal `--b--` occurs in the body, or the last occurrence of the
plain delimiter is not strictly after the first header terminator plus 4.
In all other cases it produces a result. -/
theorem c7_malformed_iff (ct body : Bytes) :
    (∃ e, parseMultipart ct body = .err e) ↔
      (¬ occursIn mfdBytes ct ∨ getBoundary ct = none) ∨
      (¬ occursIn crlf2Bytes body ∧ ∃ b, getBoundary ct = some b) ∨
      (∃ b, getBoundary ct = some b ∧
        ((¬ occursIn ([45, 45] ++ b) body ∧ ¬ occursIn (([45, 45] ++ b) ++ [45, 45]) body) ∨
         (∃ h e, isFirstOcc crlf2Bytes body h ∧ isLastOcc ([45, 45] ++ b) body e ∧
           e ≤ h + 4))) := by
  constructor
  · rintro ⟨err, he⟩
    by_cases h1 : firstIdxOf mfdBytes ct = none
    · left
      left
      rwa [firstIdxOf_eq_none_occursIn] at h1
    · cases hb : getBoundary ct with
      | none => exact Or.inl (Or.inr rfl)
      | some b =>
        cases hcr : firstIdxOf crlf2Bytes body with
        | none =>
          right
          left
          rw [firstIdxOf_eq_none_occursIn] at hcr
          exact ⟨hcr, b, rfl⟩
        | some h =>
          cases hl : lastIdxOf ([45, 45] ++ b) body with
          | none =>
            have hl2 : lastIdxOf (([45, 45] ++ b) ++ [45, 45]) body = none := by
              rw [lastIdxOf_eq_none_occursIn] at hl ⊢
              rintro ⟨j, hj⟩
              exact hl ⟨j, occursAt_of_occursAt_append hj⟩
            right
            right
            refine ⟨b, rfl, Or.inl ⟨?_, ?_⟩⟩
            · rwa [lastIdxOf_eq_none_occursIn] at hl
            · rwa [lastIdxOf_eq_none_occursIn] at hl2
          | some e =>
            by_cases hge : h + 4 ≥ e
            · right
              right
              refine ⟨b, rfl, Or.inr ⟨h, e, ?_, ?_, by omega⟩⟩
              · exact firstIdxOf_iff_isFirstOcc.mp hcr
              · exact (lastIdxOf_iff_isLastOcc (by simp)).mp hl
            · rw [parseMultipart_eval_ok h1 hb hcr hl hge] at he
              cases he
  · intro hrhs
    by_cases h1 : firstIdxOf mfdBytes ct = none
    · exact ⟨.notMultipart, parseMultipart_eval_notMultipart h1⟩
    rcases hrhs with hmfd | ⟨hcr, b, hb⟩ | ⟨b, hb, hcase⟩
    · rcases hmfd with hmfd | hbn
      · exact absurd (firstIdxOf_eq_none_occursIn.mpr hmfd) h1
      · exact ⟨.noBoundary, parseMultipart_eval_noBoundary h1 hbn⟩
    · exact ⟨.invalidFormat,
        parseMultipart_eval_invalidFormat h1 hb (firstIdxOf_eq_none_occursIn.mpr hcr)⟩
    · rcases hcase with ⟨hp, ht⟩ | ⟨h, e, hf, hl, hle⟩
      · cases hcr : firstIdxOf crlf2Bytes body with
        | none => exact ⟨.invalidFormat, parseMultipart_eval_invalidFormat h1 hb hcr⟩
        | some h =>
          exact ⟨.noFileBoundaries, parseMultipart_eval_noEnd h1 hb hcr
            (lastIdxOf_eq_none_occursIn.mpr hp) (lastIdxOf_eq_none_occursIn.mpr ht)⟩
      · exact ⟨.noFileBoundaries, parseMultipart_eval_badRange h1 hb
          (firstIdxOf_iff_isFirstOcc.mpr hf)
          ((lastIdxOf_iff_isLastOcc (by simp)).mpr hl) (by omega)⟩

/-! ### C8: where the filename is extracted from -/

/-- C8 counterexample: in `c8body` the header block (the bytes before the
first CR LF CR LF, at offset 50) contains no `filename="..."` token, yet the
decoder returns `originalName = "evil"` — the pattern occurring only inside
the payload bytes became the filename, because the regex is matched against
the whole buffer.  The claim predicts an empty filename here. -/
theorem c8_counterexample :
    firstIdxOf crlf2Bytes c8body = some 50 ∧
    matchFilename (c8body.take 50) = none ∧
    parseMultipart c8ct c8body =
      .ok ⟨strBytes "evil", strBytes "filename=\"evil\"", 15⟩ ∧
    strBytes "evil" ≠ ([] : Bytes) := by
  decide

/-- C8 (corrected claim): the decoder extracts the filename from the ENTIRE
buffer, not just the part header block: on success, `originalname` is the
capture of the leftmost position of the whole body where the regex
`filename="([^"]+)"` matches, and the empty string when no position of the
whole body matches.  (A `filename="..."` pattern occurring only in the
payload therefore can become the filename.) -/
theorem c8_filename_from_whole_buffer (ct body : Bytes) (r : ParsedFile)
    (hok : parseMultipart ct body = .ok r) :
    ((∀ i, capAt0 (body.drop i) = none) → r.originalname = []) ∧
    (∀ i cap, capAt0 (body.drop i) = some cap →
      (∀ j, j < i → capAt0 (body.drop j) = none) → r.originalname = cap) := by
  have horig : r.originalname = (matchFilename body).getD [] := by
    by_cases h1 : firstIdxOf mfdBytes ct = none
    · rw [parseMultipart_eval_notMultipart h1] at hok
      cases hok
    · cases hb : getBoundary ct with
      | none =>
        rw [parseMultipart_eval_noBoundary h1 hb] at hok
        cases hok
      | some b =>
        cases hcr : firstIdxOf crlf2Bytes body with
        | none =>
          rw [parseMultipart_eval_invalidFormat h1 hb hcr] at hok
          cases hok
        | some h =>
          cases hl : lastIdxOf ([45, 45] ++ b) body with
          | none =>
            cases hl2 : lastIdxOf (([45, 45] ++ b) ++ [45, 45]) body with
            | none =>
              rw [parseMultipart_eval_noEnd h1 hb hcr hl hl2] at hok
              cases hok
            | some e =>
              by_cases hge : h + 4 ≥ e
              · rw [parseMultipart_eval_endFromFallback h1 hb hcr hl hl2 hge] at hok
                cases hok
              · rw [parseMultipart_eval_okFallback h1 hb hcr hl hl2 hge] at hok
                cases hok
                rfl
          | some e =>
            by_cases hge : h + 4 ≥ e
            · rw [parseMultipart_eval_badRange h1 hb hcr hl hge] at hok
              cases hok
            · rw [parseMultipart_eval_ok h1 hb hcr hl hge] at hok
              cases hok
              rfl
  constructor
  · intro hall
    rw [horig, matchFilename_eq_none_iff.mpr hall]
    rfl
  · intro i cap hi hall
    rw [horig, matchFilename_eq_some_iff.mpr ⟨i, hi, hall⟩]
    rfl

/-- C8 witness: the whole-buffer theorem applied to the concrete `c8body`,
whose leftmost regex match is at offset 54, inside the payload. -/
theorem c8_filename_from_whole_buffer_witness :
    ((∀ i, capAt0 (c8body.drop i) = none) →
      (⟨strBytes "evil", strBytes "filename=\"evil\"", 15⟩ : ParsedFile).originalname = []) ∧
    (∀ i cap, capAt0 (c8body.drop i) = some cap →
      (∀ j, j < i → capAt0 (c8body.drop j) = none) →
      (⟨strBytes "evil", strBytes "filename=\"evil\"", 15⟩ : ParsedFile).originalname = cap) :=
  c8_filename_from_whole_buffer c8ct c8body _ (by decide)

/-! ### C1: the framed single-part body -/

theorem c1HeaderBytes_length : c1HeaderBytes.length = 61 := by decide

theorem c1_split (B P : Bytes) : c1Body B P =
    [45, 45] ++ (B ++ ([13, 10] ++ (c1HeaderBytes ++ ([13, 10, 13, 10] ++
      (P ++ ([13, 10] ++ ([45, 45] ++ (B ++ [45, 45])))))))) := by
  simp [c1Body, List.append_assoc]

theorem c1_hdrByte (B P : Bytes) : ∀ m, m < 61 →
    byteAt (c1Body B P) (4 + B.length + m) = byteAt c1HeaderBytes m := by
  intro m hm
  rw [c1_split]
  have e1 : 4 + B.length + m = [45, 45].length + (B.length + ([13, 10].length + m)) := by
    simp only [List.length_cons, List.length_nil]
    omega
  rw [e1, byteAt_append_right, byteAt_append_right, byteAt_append_right]
  exact byteAt_append_left _ _ _ (by rw [c1HeaderBytes_length]; omega)

theorem c1_CR (B P : Bytes) (hCR : (13 : Nat) ∉ B) :
    ∀ n, n < 65 + B.length → byteAt (c1Body B P) n = some 13 → n = 2 + B.length := by
  intro n hn h13
  by_contra hne
  rcases (by omega : n < 2 ∨ (2 ≤ n ∧ n < 2 + B.length) ∨ n = 3 + B.length ∨
      (4 + B.length ≤ n ∧ n < 65 + B.length)) with h | ⟨h2a, h2b⟩ | h | ⟨h4a, h4b⟩
  · rw [c1_split, byteAt_append_left _ _ _
      (by simp only [List.length_cons, List.length_nil]; omega)] at h13
    exact absurd (byteAt_mem h13) (by decide)
  · obtain ⟨k, rfl⟩ : ∃ k, n = [45, 45].length + k :=
      ⟨n - 2, by simp only [List.length_cons, List.length_nil]; omega⟩
    simp only [List.length_cons, List.length_nil] at h2b
    rw [c1_split, byteAt_append_right] at h13
    rw [byteAt_append_left _ _ _ (by omega)] at h13
    exact absurd (byteAt_mem h13) hCR
  · rw [c1_split,
      show n = [45, 45].length + (B.length + 1) from by
        simp only [List.length_cons, List.length_nil]; omega] at h13
    rw [byteAt_append_right, byteAt_append_right] at h13
    rw [byteAt_append_left _ _ _
      (by simp only [List.length_cons, List.length_nil]; omega)] at h13
    exact absurd h13 (by decide)
  · obtain ⟨m, hm, rfl⟩ : ∃ m, m < 61 ∧ n = 4 + B.length + m :=
      ⟨n - 4 - B.length, by omega, by omega⟩
    rw [c1_hdrByte B P m hm] at h13
    exact absurd (byteAt_mem h13) (by decide)

theorem hdrQuotes : ∀ m, m < 61 → byteAt c1HeaderBytes m = some 34 →
    m = 37 ∨ m = 42 ∨ m = 54 ∨ m = 60 := by decide

theorem c1_Q (B P : Bytes) (hQ : (34 : Nat) ∉ B) :
    ∀ n, n < 65 + B.length → byteAt (c1Body B P) n = some 34 →
      n = 41 + B.length ∨ n = 46 + B.length ∨ n = 58 + B.length ∨ n = 64 + B.length := by
  intro n hn h34
  rcases (by omega : n < 2 ∨ (2 ≤ n ∧ n < 4 + B.length) ∨
      (4 + B.length ≤ n ∧ n < 65 + B.length)) with h | ⟨h2a, h2b⟩ | ⟨h4a, h4b⟩
  · rw [c1_split, byteAt_append_left _ _ _
      (by simp only [List.length_cons, List.length_nil]; omega)] at h34
    exact absurd (byteAt_mem h34) (by decide)
  · obtain ⟨k, rfl⟩ : ∃ k, n = [45, 45].length + k :=
      ⟨n - 2, by simp only [List.length_cons, List.length_nil]; omega⟩
    simp only [List.length_cons, List.length_nil] at h2b
    rw [c1_split, byteAt_append_right] at h34
    by_cases hkB : k < B.length
    · rw [byteAt_append_left _ _ _ hkB] at h34
      exact absurd (byteAt_mem h34) hQ
    · obtain ⟨k2, rfl⟩ : ∃ k2, k = B.length + k2 := ⟨k - B.length, by omega⟩
      rw [byteAt_append_right] at h34
      rw [byteAt_append_left _ _ _
        (by simp only [List.length_cons, List.length_nil]; omega)] at h34
      exact absurd (byteAt_mem h34) (by decide)
  · obtain ⟨m, hm, rfl⟩ : ∃ m, m < 61 ∧ n = 4 + B.length + m :=
      ⟨n - 4 - B.length, by omega, by omega⟩
    rw [c1_hdrByte B P m hm] at h34
    rcases hdrQuotes m hm h34 with h | h | h | h <;> omega

theorem c1_noPat (B P : Bytes) (hQ : (34 : Nat) ∉ B) :
    ∀ j, j < 49 + B.length → ¬ occursAt fnPat (c1Body B P) j := by
  intro j hj hocc
  have h34 : byteAt (c1Body B P) (j + 9) = some 34 := occursAt_byteAt hocc (by decide)
  have hf : byteAt (c1Body B P) (j + 0) = some 102 := occursAt_byteAt hocc (by decide)
  rw [Nat.add_zero] at hf
  rcases c1_Q B P hQ (j + 9) (by omega) h34 with h | h | h | h
  · rw [show j = 4 + B.length + 28 from by omega, c1_hdrByte B P 28 (by omega)] at hf
    exact absurd hf (by decide)
  · rw [show j = 4 + B.length + 33 from by omega, c1_hdrByte B P 33 (by omega)] at hf
    exact absurd hf (by decide)
  · omega
  · rw [show j = 4 + B.length + 51 from by omega, c1_hdrByte B P 51 (by omega)] at hf
    exact absurd hf (by decide)

theorem capAt0_fnPat_atxt (X : Bytes) :
    capAt0 (fnPat ++ (strBytes "a.txt" ++ ([34] ++ X))) = some (strBytes "a.txt") := by
  have ht : (fnPat ++ (strBytes "a.txt" ++ ([34] ++ X))).take 10 = fnPat :=
    List.take_left' (by decide)
  have hd : (fnPat ++ (strBytes "a.txt" ++ ([34] ++ X))).drop 10 =
      strBytes "a.txt" ++ ([34] ++ X) := List.drop_left' (by decide)
  simp only [capAt0]
  rw [if_pos ht, hd, List.singleton_append]
  rw [takeWhile_append_stop (by decide) X (by decide)]
  rw [if_neg (by decide)]
  rw [if_pos ?hlen]
  case hlen =>
    have h5 : (strBytes "a.txt").length = 5 := by decide
    simp only [List.length_append, List.length_cons, h5]
    omega

theorem c1_dropPf (B P : Bytes) :
    (c1Body B P).drop (49 + B.length) =
      fnPat ++ (strBytes "a.txt" ++ ([34] ++ ([13, 10, 13, 10] ++
        (P ++ ([13, 10] ++ ([45, 45] ++ (B ++ [45, 45]))))))) := by
  rw [c1_split]
  have e1 : 49 + B.length = [45, 45].length + (B.length + ([13, 10].length + 45)) := by
    simp only [List.length_cons, List.length_nil]
    omega
  rw [e1, drop_len_add, drop_len_add, drop_len_add]
  rw [show c1HeaderBytes = strBytes "Content-Disposition: form-data; name=\"file\"; " ++
    (fnPat ++ (strBytes "a.txt" ++ [34])) from by decide]
  rw [List.append_assoc]
  rw [List.drop_left' (show (strBytes "Content-Disposition: form-data; name=\"file\"; ").length
    = 45 from by decide)]
  simp [List.append_assoc]

theorem c1_match (B P : Bytes) (hQ : (34 : Nat) ∉ B) :
    matchFilename (c1Body B P) = some (strBytes "a.txt") := by
  rw [matchFilename_eq_some_iff]
  refine ⟨49 + B.length, ?_, ?_⟩
  · rw [c1_dropPf B P]
    exact capAt0_fnPat_atxt _
  · intro j hj
    apply capAt0_none_of_no_fnPat
    intro hc
    exact c1_noPat B P hQ j hj hc

theorem c1_firstIdx (B P : Bytes) (hCR : (13 : Nat) ∉ B) :
    firstIdxOf crlf2Bytes (c1Body B P) = some (65 + B.length) := by
  have hsplit : c1Body B P =
      ([45, 45] ++ (B ++ ([13, 10] ++ c1HeaderBytes))) ++ (crlf2Bytes ++
        (P ++ ([13, 10] ++ ([45, 45] ++ (B ++ [45, 45]))))) := by
    simp [c1Body, crlf2Bytes, List.append_assoc]
  have hfl : ([45, 45] ++ (B ++ ([13, 10] ++ c1HeaderBytes))).length = 65 + B.length := by
    simp only [List.length_append, List.length_cons, List.length_nil, c1HeaderBytes_length]
    omega
  rw [firstIdxOf_eq_some_iff]
  constructor
  · rw [occursAt, hsplit, List.drop_left' hfl]
    exact List.take_left' rfl
  · intro j hj hocc
    have h13a : byteAt (c1Body B P) (j + 0) = some 13 := occursAt_byteAt hocc (by decide)
    have h13b : byteAt (c1Body B P) (j + 2) = some 13 := occursAt_byteAt hocc (by decide)
    rw [Nat.add_zero] at h13a
    have ha := c1_CR B P hCR j (by omega) h13a
    have hb2 := c1_CR B P hCR (j + 2) (by omega) h13b
    omega

theorem c1_lastIdx (B P : Bytes) (hD : ∃ x ∈ B, x ≠ 45) :
    lastIdxOf ([45, 45] ++ B) (c1Body B P) = some (71 + B.length + P.length) := by
  have hsplit : c1Body B P =
      ([45, 45] ++ (B ++ ([13, 10] ++ (c1HeaderBytes ++ ([13, 10, 13, 10] ++
        (P ++ [13, 10])))))) ++ ([45, 45] ++ (B ++ [45, 45])) := by
    simp [c1Body, List.append_assoc]
  have hfl : ([45, 45] ++ (B ++ ([13, 10] ++ (c1HeaderBytes ++ ([13, 10, 13, 10] ++
      (P ++ [13, 10])))))).length = 71 + B.length + P.length := by
    simp only [List.length_append, List.length_cons, List.length_nil, c1HeaderBytes_length]
    omega
  have hplen : ([45, 45] ++ B).length = B.length + 2 := by
    simp only [List.length_append, List.length_cons, List.length_nil]
    omega
  have hblen : (c1Body B P).length = 71 + B.length + P.length + (4 + B.length) := by
    rw [hsplit]
    simp only [List.length_append, List.length_cons, List.length_nil, c1HeaderBytes_length]
    omega
  rw [lastIdxOf_eq_some_iff (by simp)]
  constructor
  · rw [occursAt, hsplit, List.drop_left' hfl]
    rw [show [45, 45] ++ (B ++ [45, 45]) = ([45, 45] ++ B) ++ [45, 45] from
      (List.append_assoc _ _ _).symm]
    exact List.take_left _ _
  · intro j hocc
    by_contra hgt
    push_neg at hgt
    have hlen := occursAt_length (by simp) hocc
    rw [hplen, hblen] at hlen
    rcases (by omega : j = 71 + B.length + P.length + 1 ∨
        j = 71 + B.length + P.length + 2) with hj | hj
    · subst hj
      have hdrop : (c1Body B P).drop (71 + B.length + P.length + 1) =
          45 :: (B ++ [45, 45]) := by
        rw [hsplit, show 71 + B.length + P.length + 1 =
          ([45, 45] ++ (B ++ ([13, 10] ++ (c1HeaderBytes ++ ([13, 10, 13, 10] ++
            (P ++ [13, 10])))))).length + 1 from by rw [hfl], drop_len_add]
        rfl
      rw [occursAt, hdrop, hplen] at hocc
      rw [show B.length + 2 = (B.length + 1) + 1 from rfl, List.take_succ_cons,
        take_len_add] at hocc
      rw [show ([45, 45] : Bytes).take 1 = [45] from rfl] at hocc
      rw [show ([45, 45] : Bytes) ++ B = 45 :: 45 :: B from rfl] at hocc
      simp only [List.cons.injEq, true_and] at hocc
      obtain ⟨x, hx, hne⟩ := hD
      exact hne (append_single_comm_all hocc x hx)
    · subst hj
      have hdrop : (c1Body B P).drop (71 + B.length + P.length + 2) = B ++ [45, 45] := by
        rw [hsplit, show 71 + B.length + P.length + 2 =
          ([45, 45] ++ (B ++ ([13, 10] ++ (c1HeaderBytes ++ ([13, 10, 13, 10] ++
            (P ++ [13, 10])))))).length + 2 from by rw [hfl], drop_len_add]
        rfl
      rw [occursAt, hdrop, hplen] at hocc
      rw [take_len_add] at hocc
      rw [show ([45, 45] : Bytes).take 2 = [45, 45] from rfl] at hocc
      rw [show ([45, 45] : Bytes) ++ B = 45 :: 45 :: B from rfl] at hocc
      obtain ⟨x, hx, hne⟩ := hD
      exact hne (append_double_comm_all hocc x hx)

theorem c1_slice (B P : Bytes) :
    ((c1Body B P).take (69 + B.length + P.length)).drop (69 + B.length) = P := by
  have hsplit : c1Body B P =
      ([45, 45] ++ (B ++ ([13, 10] ++ (c1HeaderBytes ++ [13, 10, 13, 10])))) ++
        (P ++ ([13, 10] ++ ([45, 45] ++ (B ++ [45, 45])))) := by
    simp [c1Body, List.append_assoc]
  have hfl : ([45, 45] ++ (B ++ ([13, 10] ++ (c1HeaderBytes ++
      [13, 10, 13, 10])))).length = 69 + B.length := by
    simp only [List.length_append, List.length_cons, List.length_nil, c1HeaderBytes_length]
    omega
  rw [hsplit]
  rw [show 69 + B.length + P.length = ([45, 45] ++ (B ++ ([13, 10] ++ (c1HeaderBytes ++
    [13, 10, 13, 10])))).length + P.length from by rw [hfl]]
  rw [take_len_add, List.take_left]
  exact List.drop_left' hfl

/-- C1 (corrected claim): for every payload `P` and boundary token `B` that
contains no CR and no double-quote byte and is not made only of dashes
(with the content type carrying `boundary=B`), decoding the framed body
`--B\r\n<header with filename="a.txt">\r\n\r\n<P>\r\n--B--` succeeds with
`originalName = "a.txt"` and payload bytes exactly `P` — the byte range from
4 past the first CR LF CR LF to 2 before the last occurrence of `--B`.
(The original claim over arbitrary boundary tokens fails, e.g. for `B = "-"`,
where the last occurrence of `--B` lies inside the terminal `--B--` and the
extracted payload gains the line terminator.) -/
theorem c1_decoder_framed (B P ct : Bytes)
    (hCR : (13 : Nat) ∉ B) (hQ : (34 : Nat) ∉ B) (hD : ∃ x ∈ B, x ≠ 45)
    (hct : firstIdxOf mfdBytes ct ≠ none) (hb : getBoundary ct = some B) :
    parseMultipart ct (c1Body B P) = .ok ⟨strBytes "a.txt", P, P.length⟩ := by
  have hfi := c1_firstIdx B P hCR
  have hli := c1_lastIdx B P hD
  rw [parseMultipart_eval_ok hct hb hfi hli (by omega)]
  rw [c1_match B P hQ]
  rw [show (71 + B.length + P.length) - 2 = 69 + B.length + P.length from by omega]
  rw [show (65 + B.length) + 4 = 69 + B.length from by omega]
  rw [c1_slice B P]
  rfl

/-- C1 witness: the framed-decode theorem at boundary `X` and the four
payload bytes `[0, 255, 13, 10]`. -/
theorem c1_decoder_framed_witness :
    parseMultipart c1goodct (c1Body (strBytes "X") [0, 255, 13, 10]) =
      .ok ⟨strBytes "a.txt", [0, 255, 13, 10], 4⟩ :=
  c1_decoder_framed (strBytes "X") [0, 255, 13, 10] c1goodct (by decide) (by decide)
    (by decide) (by decide) (by decide)

/-- C1 counterexample: with the boundary token `-` (all dashes) and the
empty payload, decoding succeeds but returns the two payload bytes CR LF
instead of the empty payload: the last occurrence of `---` lies two bytes
inside the terminal `-----`, refuting the claim as stated for every
boundary token. -/
theorem c1_counterexample :
    getBoundary c1badct = some [45] ∧
    parseMultipart c1badct (c1Body [45] []) = .ok ⟨strBytes "a.txt", [13, 10], 2⟩ ∧
    ([13, 10] : Bytes) ≠ ([] : Bytes) := by
  decide

end CloudVault
